import Mathlib

/-!
Verification development for `topicnaming/topic_naming.py`.

The numeric code of the source operates on numpy float arrays; the embedding
models scalars by `ℚ` (and by `ℝ` where cosine distances, which involve square
roots, are needed), vectors and matrices by lists, and the external
collaborators (hdbscan condensation, sklearn pairwise distances, the LLM) by
oracle parameters.  Fallible array indexing is modelled by `Option`.
-/

set_option synthInstance.maxSize 4096

set_option linter.unusedVariables false

set_option allowUnsafeReducibility true

attribute [semireducible] Rat.add Rat.mul Rat.div Rat.inv Rat.sub Rat.neg Rat.blt

/-- Vectors stand for rows of the numpy float arrays of the source. -/
abbrev Vec := List ℚ

/-- Componentwise vector addition (numpy row `+=`). -/
def vadd (u v : Vec) : Vec := List.zipWith (· + ·) u v

/-- Scalar times vector (numpy `strength * vector`). -/
def smul (s : ℚ) (v : Vec) : Vec := v.map (fun x => s * x)

/-- Componentwise division of a vector by a scalar (numpy `row /= weight`). -/
def vdiv (v : Vec) (w : ℚ) : Vec := v.map (fun x => x / w)

/-- The all-zero vector, `np.zeros(d)`. -/
def zeros (d : ℕ) : Vec := List.replicate d 0

/-- Python `set.add` on a set modelled as a duplicate-free list: append only
when the element is absent. -/
def setInsert {α} [DecidableEq α] (xs : List α) (a : α) : List α :=
  if a ∈ xs then xs else xs ++ [a]

/-- Accumulator state of the document loop of `layer_from_clustering`
(source lines 37-41): the five per-cluster arrays, each of length
`n_clusters`. -/
structure AggState where
  avgVecs : List Vec
  avgLocs : List Vec
  weights : List ℚ
  psets : List (List ℕ)
  metas : List (List ℤ)
deriving DecidableEq

/-- Body of one in-range iteration of the document loop of
`layer_from_clustering` (source lines 46-54): accumulate the weighted vector,
location and weight of document `i` into the arrays at cluster `c`, and when
the membership strength exceeds the threshold record `i` in the pointset and
its non-unassigned base cluster in the metacluster set. -/
def aggStep (th : ℚ) (c i : ℕ) (s : ℚ) (v l : Vec) (b : ℤ) (st : AggState) : AggState :=
  { avgVecs := st.avgVecs.set c (vadd (st.avgVecs.getD c []) (smul s v))
    avgLocs := st.avgLocs.set c (vadd (st.avgLocs.getD c []) (smul s l))
    weights := st.weights.set c (st.weights.getD c 0 + s)
    psets := if th < s then st.psets.set c (setInsert (st.psets.getD c []) i) else st.psets
    metas := if th < s ∧ b ≠ -1 then st.metas.set c (setInsert (st.metas.getD c []) b)
             else st.metas }

/-- The per-document loop of `layer_from_clustering` (source lines 43-54).
Each step reads one entry of the label, strength, vector, location and
base-cluster arrays (the source indexes all five at `i`; here they are
consumed in lockstep).  A write at a cluster index that is out of range for
the `n_clusters`-sized accumulator arrays is the numba out-of-bounds write of
the source and yields `none`. -/
def aggLoop (th : ℚ) :
    List ℤ → List ℚ → List Vec → List Vec → List ℤ → ℕ → AggState → Option AggState
  | lab :: labs, s :: ss, v :: vs, l :: ls, b :: bs, i, st =>
    if 0 ≤ lab then
      if lab.toNat < st.weights.length then
        aggLoop th labs ss vs ls bs (i + 1) (aggStep th lab.toNat i s v l b st)
      else none
    else aggLoop th labs ss vs ls bs (i + 1) st
  | _, _, _, _, _, _, st => some st

/-- Source `layer_from_clustering` (lines 26-60): `n_clusters` is
`len(set(cluster_label_vector)) - 1`; the accumulator arrays are zero-filled
with that many rows; after the document loop every row is divided by its
total weight.  The final division `x / 0` for an empty cluster is rational
division by zero (`= 0`), standing in for the source's float `nan`. -/
def layer_from_clustering (point_vectors point_locations : List Vec)
    (cluster_label_vector : List ℤ) (cluster_membership_vector : List ℚ)
    (base_clusters : List ℤ) (membership_strength_threshold : ℚ) :
    Option (List Vec × List Vec × List (List ℕ) × List (List ℤ)) :=
  let n := cluster_label_vector.dedup.length - 1
  let d := (point_vectors.headD []).length
  let dl := (point_locations.headD []).length
  let st0 : AggState :=
    ⟨List.replicate n (zeros d), List.replicate n (zeros dl), List.replicate n 0,
      List.replicate n [], List.replicate n []⟩
  match aggLoop membership_strength_threshold cluster_label_vector cluster_membership_vector
      point_vectors point_locations base_clusters 0 st0 with
  | none => none
  | some st =>
      some (List.zipWith vdiv st.avgVecs st.weights, List.zipWith vdiv st.avgLocs st.weights,
        st.psets, st.metas)

/-- Strength-weighted sum of the vectors of the documents labelled `c`,
written as a left fold in document order; the accumulator-passing shape
mirrors the accumulation order of the source loop. -/
def vecFoldFrom (c : ℕ) : List ℤ → List ℚ → List Vec → Vec → Vec
  | lab :: labs, s :: ss, v :: vs, acc =>
      vecFoldFrom c labs ss vs (if lab = (c : ℤ) then vadd acc (smul s v) else acc)
  | _, _, _, acc => acc

/-- Total membership strength of the documents labelled `c`. -/
def weightFoldFrom (c : ℕ) : List ℤ → List ℚ → ℚ → ℚ
  | lab :: labs, s :: ss, acc => weightFoldFrom c labs ss (if lab = (c : ℤ) then acc + s else acc)
  | _, _, acc => acc

/-- Document indices (counted from `i`) labelled `c` with membership strength
strictly above the threshold, in document order. -/
def psetFoldFrom (c : ℕ) (th : ℚ) : List ℤ → List ℚ → ℕ → List ℕ → List ℕ
  | lab :: labs, s :: ss, i, acc =>
      psetFoldFrom c th labs ss (i + 1) (if lab = (c : ℤ) ∧ th < s then acc ++ [i] else acc)
  | _, _, _, acc => acc

/-- Strength-weighted sum of the vectors of exactly the documents labelled
`c` (spec wording: the numerator of the strength-weighted mean). -/
def clusterVecSum (labels : List ℤ) (ss : List ℚ) (vs : List Vec) (c d : ℕ) : Vec :=
  vecFoldFrom c labels ss vs (zeros d)

/-- Total strength of exactly the documents labelled `c` (spec wording: the
denominator of the strength-weighted mean). -/
def clusterWeight (labels : List ℤ) (ss : List ℚ) (c : ℕ) : ℚ :=
  weightFoldFrom c labels ss 0

/-- The retention loop of `diversify` (source lines 147-160), parametrized by
the distance-to-query vector `dq` and the pairwise candidate distances `dp`
that the source obtains from the external `pairwise_distances` collaborator.
Candidate `i` is rejected as soon as some already retained `j` satisfies
`alpha * dq i > dp i j` (the source's `break`), i.e. retained exactly when
`alpha * dq i ≤ dp i j` for every retained `j`; after an acceptance the loop
returns early once the retained list reaches `max_candidates`. -/
def diversifyAux {α} [LinearOrderedField α] (dq : ℕ → α) (dp : ℕ → ℕ → α) (alpha : α)
    (maxCandidates : ℕ) : List ℕ → List ℕ → List ℕ
  | retained, [] => retained
  | retained, i :: rest =>
    if ∀ j ∈ retained, alpha * dq i ≤ dp i j then
      if maxCandidates ≤ retained.length + 1 then retained ++ [i]
      else diversifyAux dq dp alpha maxCandidates (retained ++ [i]) rest
    else diversifyAux dq dp alpha maxCandidates retained rest

/-- Source `diversify` (lines 142-160): candidate `0` is always retained and
the loop scans candidates `1..n-1` in input order.  (For an empty candidate
array the source's distance computation errors; theorems assume
`1 ≤ numCandidates`.) -/
def diversify {α} [LinearOrderedField α] (dq : ℕ → α) (dp : ℕ → ℕ → α)
    (numCandidates : ℕ) (alpha : α) (maxCandidates : ℕ) : List ℕ :=
  diversifyAux dq dp alpha maxCandidates [0] (List.range' 1 (numCandidates - 1))

/-- Dot product of two real vectors. -/
noncomputable def dotR (u v : List ℝ) : ℝ := (List.zipWith (fun a b => a * b) u v).sum

/-- Cosine distance, the metric the source requests from
`sklearn.metrics.pairwise_distances(·, metric="cosine")`. -/
noncomputable def cosineDist (u v : List ℝ) : ℝ :=
  1 - dotR u v / (Real.sqrt (dotR u u) * Real.sqrt (dotR v v))

/-- `diversify` on explicit vectors: the source computes the distance of the
query to every candidate and, per step, of a candidate to the retained
candidates, all with the cosine metric. -/
noncomputable def diversifyVec (query : List ℝ) (cands : List (List ℝ)) (alpha : ℝ)
    (maxCandidates : ℕ) : List ℕ :=
  diversify (fun i => cosineDist query (cands.getD i []))
    (fun i j => cosineDist (cands.getD i []) (cands.getD j [])) cands.length alpha
    maxCandidates

/-- Indices `0..n-1` sorted by the key `f` (numpy `argsort` of one row; the
tie order of numpy's unstable sort is unspecified, ours is the insertion-sort
order). -/
def argsort {α} [LinearOrder α] (f : ℕ → α) (n : ℕ) : List ℕ :=
  List.insertionSort (fun a b => f a ≤ f b) (List.range n)

/-- The cross-layer neighbor table of `fit_clusters` (source lines 431-437):
for each cluster `i` of a layer with `n` clusters, the first `K` entries of
the argsort of row `i` of the pairwise distance matrix. -/
def layer_cluster_neighbours {α} [LinearOrder α] (dist : ℕ → ℕ → α) (n K : ℕ) :
    List (List ℕ) :=
  (List.range n).map (fun i => (argsort (dist i) n).take K)

/-- A cluster layer as accumulated by `build_cluster_layers`: centroid
vectors, centroid locations, pointsets and metacluster sets. -/
structure BCLayer where
  vecs : List Vec
  locs : List Vec
  psets : List (List ℕ)
  metas : List (List ℤ)
deriving DecidableEq

instance : Inhabited BCLayer := ⟨⟨[], [], [], []⟩⟩

/-- Numpy boolean-mask selection `xs[mask]`. -/
def maskFilter {β} : List Bool → List β → List β
  | b :: bs, x :: xs => if b then x :: maskFilter bs xs else maskFilter bs xs
  | _, _ => []

/-- Exact rational version of `int(np.quantile(xs, q))` (source line 127):
linear interpolation between the two order statistics around `q * (n - 1)`,
then truncation to an integer; `none` for an empty list, where `np.quantile`
raises. -/
def npQuantileInt (xs : List ℕ) (q : ℚ) : Option ℕ :=
  match xs with
  | [] => none
  | _ :: _ =>
    let sorted := List.insertionSort (· ≤ ·) xs
    let n := xs.length
    let h : ℚ := q * ((n : ℚ) - 1)
    let lo : ℕ := h.floor.toNat
    let hi : ℕ := min (lo + 1) (n - 1)
    let vlo : ℚ := ((sorted.getD lo 0 : ℕ) : ℚ)
    let vhi : ℚ := ((sorted.getD hi 0 : ℕ) : ℚ)
    some (vlo + (h - (lo : ℚ)) * (vhi - vlo)).floor.toNat

/-- Python `np.max(labels) + 1` over an `ℤ` label vector (source line 136),
with the convention `-1` for an empty vector; labels obey the collaborator
contract `label ≥ -1`, so folding `max` with initial value `-1` agrees with
`np.max` on every nonempty contract-respecting vector. -/
def listMaxZ (xs : List ℤ) : ℤ := xs.foldr max (-1)

/-- The while loop of `build_cluster_layers` (source lines 99-137).  The
external hdbscan condensation pipeline (lines 80-90 and 130-133) is the
oracle `condense`, mapping a `min_cluster_size` to the flat clustering
(label vector, membership strengths) of the fixed dendrogram condensed at
that size.  `base_clusters` is fixed once before the loop (line 94) and never
reassigned.  Fuel models the unbounded `while`; `none` means the run did not
terminate within `fuel` iterations (or an inner error was hit). -/
def bclLoop (pv pl : List Vec) (condense : ℕ → List ℤ × List ℚ) (min_clusters : ℕ)
    (th q : ℚ) (base_clusters : List ℤ) :
    ℕ → List ℤ → List ℚ → ℕ → Bool → List BCLayer → Option (List BCLayer)
  | 0, _, _, _, _, _ => none
  | fuel + 1, clusters, probs, nLayer, isBase, acc =>
    if nLayer < min_clusters then some acc
    else
      match layer_from_clustering pv pl clusters probs base_clusters th with
      | none => none
      | some (v, l, p, m) =>
        let keep : List Bool := m.map (fun x => decide (1 < x.length))
        let v2 := if isBase then v else maskFilter keep v
        let l2 := if isBase then l else maskFilter keep l
        let p2 := if isBase then p else maskFilter keep p
        let m2 := if isBase then m else maskFilter keep m
        match npQuantileInt (p2.map List.length) q with
        | none => none
        | some mcs =>
          bclLoop pv pl condense min_clusters th q base_clusters fuel
            (condense mcs).1 (condense mcs).2 (listMaxZ (condense mcs).1 + 1).toNat false
            (acc ++ [⟨v2, l2, p2, m2⟩])

/-- Source `build_cluster_layers` (lines 63-140): condense at
`base_min_cluster_size` for the base layer, remember its label vector as
`base_clusters`, count its distinct nonnegative labels, and run the layer
loop.  (`min_samples` only parametrizes the external MST construction inside
the oracle and is therefore not a separate parameter here.) -/
def build_cluster_layers (pv pl : List Vec) (condense : ℕ → List ℤ × List ℚ)
    (min_clusters base_min_cluster_size : ℕ) (th q : ℚ) (fuel : ℕ) :
    Option (List BCLayer) :=
  bclLoop pv pl condense min_clusters th q (condense base_min_cluster_size).1 fuel
    (condense base_min_cluster_size).1 (condense base_min_cluster_size).2
    (((condense base_min_cluster_size).1.filter (fun x => decide (0 ≤ x))).dedup.length)
    true []

/-- Bool test deciding whether `needle` is a prefix of `hay`. -/
def isPref : List Char → List Char → Bool
  | [], _ => true
  | _ :: _, [] => false
  | a :: as, b :: bs => a == b && isPref as bs

/-- Bool test deciding whether `needle` occurs as a contiguous substring of
`hay` (Python's `needle in hay` on strings). -/
def isSub : List Char → List Char → Bool
  | n, [] => isPref n []
  | n, b :: t => isPref n (b :: t) || isSub n t

/-- Python `f" {p}" in o or f"{p} " in o` (source line 209): `o` extends the
phrase `p` at a whitespace boundary. -/
def spacedSub (p o : List Char) : Bool := isSub (' ' :: p) o || isSub (p ++ [' ']) o

/-- The inner scan of `longest_keyphrases` (source lines 208-210): walk the
candidate list once, replacing the running phrase by any candidate that
extends it. -/
def lkChain : List (List Char) → List Char → List Char
  | [], p => p
  | o :: rest, p => if spacedSub p o then lkChain rest o else lkChain rest p

/-- The outer loop of `longest_keyphrases` (source lines 207-214) over the
index list: the candidate list is mutated in place at index `i` when a new
phrase is recorded, and `res` is the accumulated result list. -/
def lkLoop : List (List Char) → List (List Char) → List ℕ → List (List Char)
  | _, res, [] => res
  | l, res, i :: idxs =>
    let phrase := lkChain l (l.getD i [])
    if phrase ∈ res then lkLoop l res idxs
    else lkLoop (l.set i phrase) (res ++ [phrase]) idxs

/-- Source `longest_keyphrases` (lines 205-216), with strings as `List Char`. -/
def longest_keyphrases (candidate_keyphrases : List (List Char)) : List (List Char) :=
  lkLoop candidate_keyphrases [] (List.range candidate_keyphrases.length)

/-- The shrink-and-retry `while` of `fit_base_level_prompts` (source lines
618-624), with a prompt modelled by its token list.  `bp cluster r` is the
token sequence of `build_base_prompt` for the cluster with at most `r`
documents per cluster (prompt building and tokenization are the external
collaborators); `plen` is the stored `prompt_length`, which the source does
NOT recompute after the raw truncation, and `fuel` models the unbounded
`while`. -/
def shrinkLoop (bp : ℕ → ℕ → List ℕ) (nctx cluster : ℕ) :
    ℕ → ℕ → List ℕ → ℕ → Option (List ℕ)
  | 0, _, _, _ => none
  | fuel + 1, reduced, prompt, plen =>
    if nctx < plen then
      if reduced / 2 < 1 then
        shrinkLoop bp nctx cluster fuel (reduced / 2)
          ((bp cluster (reduced / 2)).take nctx) (bp cluster (reduced / 2)).length
      else
        shrinkLoop bp nctx cluster fuel (reduced / 2) (bp cluster (reduced / 2))
          (bp cluster (reduced / 2)).length
    else some prompt

/-- One cluster of `fit_base_level_prompts` (source lines 614-625): build the
initial prompt with the full quota and run the shrink-and-retry loop. -/
def fit_prompt_for_cluster (bp : ℕ → ℕ → List ℕ) (nctx cluster maxDocs fuel : ℕ) :
    Option (List ℕ) :=
  shrinkLoop bp nctx cluster fuel maxDocs (bp cluster maxDocs) (bp cluster maxDocs).length

/-- The re-prompt `while` of `clean_topic_names` (source lines 788-804):
while the current name is already used and fewer than 8 attempts were made,
ask the generation oracle for a replacement (`gen attempts` stands for the
llm call on the remedy prompt of attempt number `attempts`) and normalize it
(the source's strip/capwords string glue).  The countdown `k` equals
`8 - attempts`. -/
def remedyAttempts (gen : ℕ → String) (normalize : String → String) (uniq : List String) :
    ℕ → ℕ → String → String × ℕ
  | 0, attempts, name => (name, attempts)
  | k + 1, attempts, name =>
    if name ∈ uniq then
      remedyAttempts gen normalize uniq k (attempts + 1) (normalize (gen attempts))
    else (name, attempts)

/-- Numpy fancy assignment `arr[indices] = v` (source line 808). -/
def assignAll (arr : List String) (idxs : List ℕ) (v : String) : List String :=
  idxs.foldl (fun a j => a.set j v) arr

/-- The per-cluster loop of one layer of `clean_topic_names` (source lines
781-808): for cluster `i`, normalize its raw name, run the re-prompt loop
against the running used-name set, then commit: add the resulting name to the
set and assign it to every document of the cluster's pointset.  Returns the
final used-name set, the per-document label array, and the per-cluster
`(committed name, attempts)` records. -/
def processClusters (gen : ℕ → ℕ → String) (normalize : String → String) :
    List (String × List ℕ) → ℕ → List String → List String →
      List String × List String × List (String × ℕ)
  | [], _, uniq, arr => (uniq, arr, [])
  | (name, ps) :: rest, i, uniq, arr =>
    let r := remedyAttempts (gen i) normalize uniq 8 0 (normalize name)
    let out := processClusters gen normalize rest (i + 1) (setInsert uniq r.1)
      (assignAll arr ps r.1)
    (out.1, out.2.1, (r.1, r.2) :: out.2.2)

/-- The layer loop of `clean_topic_names` (source line 779), applied to the
layers already arranged top-down (coarsest first); each layer starts from a
fresh all-`"Unlabelled"` document array (source line 777). -/
def processLayersRev (gen : ℕ → ℕ → ℕ → String) (normalize : String → String)
    (nDocs : ℕ) :
    List (ℕ × List String × List (List ℕ)) → List String →
      List String × List (ℕ × List String × List (String × ℕ))
  | [], uniq => (uniq, [])
  | (n, names, psets) :: rest, uniq =>
    let res := processClusters (gen n) normalize (names.zip psets) 0 uniq
      (List.replicate nDocs "Unlabelled")
    let out := processLayersRev gen normalize nDocs rest res.1
    (out.1, (n, res.2.1, res.2.2) :: out.2)

/-- Source `clean_topic_names` (lines 767-808): process layers from the
coarsest (`len - 1`) down to the base layer (`0`), threading the global
used-name set; `gen n i k` is the llm's (already stripped) reply for layer
`n`, cluster `i`, attempt `k`, and `normalize` is the strip/capwords
normalization glue.  Returns the final used-name set and, per layer, the
document label array and the committed `(name, attempts)` records. -/
def clean_topic_names (gen : ℕ → ℕ → ℕ → String) (normalize : String → String)
    (topic_name_layers : List (List String)) (pointset_layers : List (List (List ℕ)))
    (nDocs : ℕ) : List String × List (ℕ × List String × List (String × ℕ)) :=
  processLayersRev gen normalize nDocs
    (((List.range topic_name_layers.length).map
        (fun n => (n, topic_name_layers.getD n [], pointset_layers.getD n []))).reverse) []

/-- A concrete condensation oracle over 7 documents that respects the
collaborator contract (labels ≥ -1, at least one unassigned document,
strengths in [0,1]): size 10 (the base call) yields 2 clusters, size 3
yields 3 clusters, size 2 yields no clusters.  Condensing a real dendrogram
at a SMALLER min size yields MORE clusters, and the 0.8 quantile of the base
pointset sizes here is 3 < 10, so this shape is reachable for the real
collaborator as well. -/
def condenseIncr : ℕ → List ℤ × List ℚ := fun s =>
  if s = 3 then ([0, 1, 2, 0, 1, 2, -1], List.replicate 7 1)
  else if s = 2 then (List.replicate 7 (-1), List.replicate 7 1)
  else ([0, 0, 0, 1, 1, 1, -1], List.replicate 7 1)

/-- A concrete contract-respecting condensation oracle over 11 documents
producing three layers: the base call (size 10) yields 5 clusters, size 2
yields 2 clusters, size 5 yields 2 different clusters, size 3 ends the run. -/
def condenseDeep : ℕ → List ℤ × List ℚ := fun s =>
  if s = 2 then ([0, 0, 0, 0, 1, 1, 1, 1, 1, 1, -1], List.replicate 11 1)
  else if s = 5 then ([-1, -1, -1, -1, 0, 0, 0, 1, 1, 1, -1], List.replicate 11 1)
  else if s = 3 then (List.replicate 11 (-1), List.replicate 11 1)
  else ([0, 0, 1, 1, 2, 2, 3, 3, 4, 4, -1], List.replicate 11 1)

theorem mem_setInsert {α} [DecidableEq α] (xs : List α) (a b : α) :
    a ∈ setInsert xs b ↔ a ∈ xs ∨ a = b := by
  unfold setInsert
  split
  · constructor
    · exact fun h => Or.inl h
    · rintro (h | rfl)
      · exact h
      · assumption
  · simp [or_comm]

theorem setInsert_of_not_mem {α} [DecidableEq α] {xs : List α} {b : α} (h : b ∉ xs) :
    setInsert xs b = xs ++ [b] := if_neg h

theorem getD_set_self {α} : ∀ (l : List α) (c : ℕ) (x d : α), c < l.length →
    (l.set c x).getD c d = x
  | a :: t, 0, x, d, _ => rfl
  | a :: t, c + 1, x, d, h => getD_set_self t c x d (Nat.lt_of_succ_lt_succ h)

theorem getD_set_ne {α} : ∀ (l : List α) (c k : ℕ) (x d : α), c ≠ k →
    (l.set c x).getD k d = l.getD k d
  | [], _, _, _, _, _ => rfl
  | a :: t, 0, 0, x, d, h => absurd rfl h
  | a :: t, 0, k + 1, x, d, _ => rfl
  | a :: t, c + 1, 0, x, d, _ => rfl
  | a :: t, c + 1, k + 1, x, d, h =>
      getD_set_ne t c k x d (fun hck => h (by omega))

/-- Characterization of the document loop of `layer_from_clustering`: when
every nonnegative label is in range for the accumulator arrays, the loop
succeeds and each per-cluster cell holds the corresponding left fold over the
documents. -/
theorem aggLoop_char (th : ℚ) :
    ∀ (labs : List ℤ) (ss : List ℚ) (vs ls : List Vec) (bs : List ℤ) (i : ℕ) (st : AggState),
      labs.length = ss.length → labs.length = vs.length → labs.length = ls.length →
      labs.length = bs.length →
      (∀ lab ∈ labs, 0 ≤ lab → lab.toNat < st.weights.length) →
      st.avgVecs.length = st.weights.length → st.avgLocs.length = st.weights.length →
      st.psets.length = st.weights.length →
      (∀ c, ∀ x ∈ st.psets.getD c [], x < i) →
      ∃ st', aggLoop th labs ss vs ls bs i st = some st' ∧
        st'.avgVecs.length = st.avgVecs.length ∧
        st'.avgLocs.length = st.avgLocs.length ∧
        st'.weights.length = st.weights.length ∧
        st'.psets.length = st.psets.length ∧
        (∀ c, c < st.weights.length →
          st'.avgVecs.getD c [] = vecFoldFrom c labs ss vs (st.avgVecs.getD c []) ∧
          st'.avgLocs.getD c [] = vecFoldFrom c labs ss ls (st.avgLocs.getD c []) ∧
          st'.weights.getD c 0 = weightFoldFrom c labs ss (st.weights.getD c 0) ∧
          st'.psets.getD c [] = psetFoldFrom c th labs ss i (st.psets.getD c [])) := by
  intro labs
  induction labs with
  | nil =>
    intro ss vs ls bs i st _ _ _ _ _ _ _ _ _
    refine ⟨st, rfl, rfl, rfl, rfl, rfl, ?_⟩
    intro c _
    refine ⟨?_, ?_, ?_, ?_⟩ <;> simp [vecFoldFrom, weightFoldFrom, psetFoldFrom]
  | cons lab labs ih =>
    intro ss vs ls bs i st hss hvs hls hbs hb hlv hll hlp hf
    match ss, vs, ls, bs, hss, hvs, hls, hbs with
    | s :: ss, v :: vs, l :: ls, b :: bs, hss, hvs, hls, hbs =>
    simp only [List.length_cons, Nat.succ.injEq] at hss hvs hls hbs
    by_cases h0 : 0 ≤ lab
    · have hc : lab.toNat < st.weights.length := hb lab (List.mem_cons_self _ _) h0
      have hlabc0 : lab = (lab.toNat : ℤ) := (Int.toNat_of_nonneg h0).symm
      have hrun : aggLoop th (lab :: labs) (s :: ss) (v :: vs) (l :: ls) (b :: bs) i st =
          aggLoop th labs ss vs ls bs (i + 1) (aggStep th lab.toNat i s v l b st) := by
        simp only [aggLoop]
        rw [if_pos h0, if_pos hc]
      have hv1 : (aggStep th lab.toNat i s v l b st).avgVecs.getD lab.toNat [] =
          vadd (st.avgVecs.getD lab.toNat []) (smul s v) :=
        getD_set_self _ _ _ _ (by rw [hlv]; exact hc)
      have hl1 : (aggStep th lab.toNat i s v l b st).avgLocs.getD lab.toNat [] =
          vadd (st.avgLocs.getD lab.toNat []) (smul s l) :=
        getD_set_self _ _ _ _ (by rw [hll]; exact hc)
      have hw1 : (aggStep th lab.toNat i s v l b st).weights.getD lab.toNat 0 =
          st.weights.getD lab.toNat 0 + s :=
        getD_set_self _ _ _ _ hc
      have hp1 : ∀ c, (aggStep th lab.toNat i s v l b st).psets.getD c [] =
          (if lab = (c : ℤ) ∧ th < s then st.psets.getD c [] ++ [i]
           else st.psets.getD c []) := by
        intro c
        by_cases hcc : lab.toNat = c
        · subst hcc
          by_cases hth : th < s
          · have hnotmem : i ∉ st.psets.getD lab.toNat [] := fun hmem =>
              absurd (hf lab.toNat i hmem) (lt_irrefl i)
            simp only [aggStep, if_pos hth]
            rw [getD_set_self _ _ _ _ (by rw [hlp]; exact hc),
              setInsert_of_not_mem hnotmem, if_pos ⟨hlabc0, hth⟩]
          · simp only [aggStep, if_neg hth]
            rw [if_neg (fun h => hth h.2)]
        · have hlabne : ¬ lab = (c : ℤ) := fun h => hcc (by omega)
          have hrhs : (if lab = (c : ℤ) ∧ th < s then st.psets.getD c [] ++ [i]
              else st.psets.getD c []) = st.psets.getD c [] :=
            if_neg (fun h => hlabne h.1)
          rw [hrhs]
          simp only [aggStep]
          split
          · exact getD_set_ne _ _ _ _ _ hcc
          · rfl
      obtain ⟨st', hrun', hv', hl', hw', hp', hchar⟩ :=
        ih ss vs ls bs (i + 1) (aggStep th lab.toNat i s v l b st) hss hvs hls hbs
          (by
            intro x hx hx0
            simp only [aggStep, List.length_set]
            exact hb x (List.mem_cons_of_mem _ hx) hx0)
          (by simp [aggStep, List.length_set, hlv])
          (by simp [aggStep, List.length_set, hll])
          (by
            simp only [aggStep, List.length_set]
            split <;> simp [List.length_set, hlp])
          (by
            intro c x hx
            rw [hp1 c] at hx
            by_cases hcond : lab = (c : ℤ) ∧ th < s
            · rw [if_pos hcond] at hx
              rcases List.mem_append.mp hx with hx | hx
              · exact Nat.lt_succ_of_lt (hf c x hx)
              · simp only [List.mem_singleton] at hx
                omega
            · rw [if_neg hcond] at hx
              exact Nat.lt_succ_of_lt (hf c x hx))
      refine ⟨st', by rw [hrun]; exact hrun', ?_, ?_, ?_, ?_, ?_⟩
      · rw [hv']; simp [aggStep, List.length_set]
      · rw [hl']; simp [aggStep, List.length_set]
      · rw [hw']; simp [aggStep, List.length_set]
      · rw [hp']; simp only [aggStep]; split <;> simp [List.length_set]
      · intro c hcw
        have hcw1 : c < (aggStep th lab.toNat i s v l b st).weights.length := by
          simp only [aggStep, List.length_set]; exact hcw
        obtain ⟨e1, e2, e3, e4⟩ := hchar c hcw1
        have hacc1 : (aggStep th lab.toNat i s v l b st).avgVecs.getD c [] =
            (if lab = (c : ℤ) then vadd (st.avgVecs.getD c []) (smul s v)
             else st.avgVecs.getD c []) := by
          by_cases hcc : lab.toNat = c
          · subst hcc; rw [if_pos hlabc0]; exact hv1
          · rw [if_neg (fun h => hcc (by omega))]
            simp only [aggStep]
            exact getD_set_ne _ _ _ _ _ hcc
        have hacc2 : (aggStep th lab.toNat i s v l b st).avgLocs.getD c [] =
            (if lab = (c : ℤ) then vadd (st.avgLocs.getD c []) (smul s l)
             else st.avgLocs.getD c []) := by
          by_cases hcc : lab.toNat = c
          · subst hcc; rw [if_pos hlabc0]; exact hl1
          · rw [if_neg (fun h => hcc (by omega))]
            simp only [aggStep]
            exact getD_set_ne _ _ _ _ _ hcc
        have hacc3 : (aggStep th lab.toNat i s v l b st).weights.getD c 0 =
            (if lab = (c : ℤ) then st.weights.getD c 0 + s else st.weights.getD c 0) := by
          by_cases hcc : lab.toNat = c
          · subst hcc; rw [if_pos hlabc0]; exact hw1
          · rw [if_neg (fun h => hcc (by omega))]
            simp only [aggStep]
            exact getD_set_ne _ _ _ _ _ hcc
        refine ⟨?_, ?_, ?_, ?_⟩
        · rw [e1, hacc1]; simp only [vecFoldFrom]
        · rw [e2, hacc2]; simp only [vecFoldFrom]
        · rw [e3, hacc3]; simp only [weightFoldFrom]
        · rw [e4, hp1 c]; simp only [psetFoldFrom]
    · have hrun : aggLoop th (lab :: labs) (s :: ss) (v :: vs) (l :: ls) (b :: bs) i st =
          aggLoop th labs ss vs ls bs (i + 1) st := by
        simp only [aggLoop]
        rw [if_neg h0]
      have hlabne : ∀ c : ℕ, ¬ lab = (c : ℤ) := fun c h => h0 (by omega)
      obtain ⟨st', hrun', hv', hl', hw', hp', hchar⟩ :=
        ih ss vs ls bs (i + 1) st hss hvs hls hbs
          (fun x hx hx0 => hb x (List.mem_cons_of_mem _ hx) hx0) hlv hll hlp
          (fun c x hx => Nat.lt_succ_of_lt (hf c x hx))
      refine ⟨st', by rw [hrun]; exact hrun', hv', hl', hw', hp', ?_⟩
      intro c hcw
      obtain ⟨e1, e2, e3, e4⟩ := hchar c hcw
      refine ⟨?_, ?_, ?_, ?_⟩
      · rw [e1]; simp only [vecFoldFrom]; rw [if_neg (hlabne c)]
      · rw [e2]; simp only [vecFoldFrom]; rw [if_neg (hlabne c)]
      · rw [e3]; simp only [weightFoldFrom]; rw [if_neg (hlabne c)]
      · rw [e4]; simp only [psetFoldFrom]; rw [if_neg (fun h => hlabne c h.1)]

theorem getD_replicate_lt {α} : ∀ (n c : ℕ) (a d : α), c < n →
    (List.replicate n a).getD c d = a
  | n + 1, 0, a, d, _ => rfl
  | n + 1, c + 1, a, d, h => getD_replicate_lt n c a d (Nat.lt_of_succ_lt_succ h)

theorem getD_zipWith {α β γ} (f : α → β → γ) :
    ∀ (xs : List α) (ys : List β) (c : ℕ) (da : α) (db : β) (dc : γ),
      c < xs.length → c < ys.length →
      (List.zipWith f xs ys).getD c dc = f (xs.getD c da) (ys.getD c db)
  | x :: xs, y :: ys, 0, _, _, _, _, _ => rfl
  | x :: xs, y :: ys, c + 1, da, db, dc, hx, hy =>
      getD_zipWith f xs ys c da db dc (Nat.lt_of_succ_lt_succ hx) (Nat.lt_of_succ_lt_succ hy)

/-- Membership in the pointset fold: exactly the documents labelled `c` whose
membership strength strictly exceeds the threshold. -/
theorem psetFold_mem (c : ℕ) (th : ℚ) :
    ∀ (labs : List ℤ) (ss : List ℚ) (i : ℕ) (acc : List ℕ) (j : ℕ),
      labs.length = ss.length →
      (j ∈ psetFoldFrom c th labs ss i acc ↔
        j ∈ acc ∨ ∃ k, k < labs.length ∧ i + k = j ∧ labs.getD k (-1) = (c : ℤ) ∧
          th < ss.getD k 0) := by
  intro labs
  induction labs with
  | nil =>
    intro ss i acc j hlen
    simp only [psetFoldFrom, List.length_nil]
    constructor
    · exact fun h => Or.inl h
    · rintro (h | ⟨k, hk, _⟩)
      · exact h
      · omega
  | cons lab labs ih =>
    intro ss i acc j hlen
    match ss, hlen with
    | s :: ss, hlen =>
    simp only [List.length_cons, Nat.succ.injEq] at hlen
    simp only [psetFoldFrom]
    rw [ih ss (i + 1) _ j hlen]
    constructor
    · rintro (hmem | ⟨k, hk, hik, hlab, hth⟩)
      · by_cases hcond : lab = (c : ℤ) ∧ th < s
        · rw [if_pos hcond] at hmem
          rcases List.mem_append.mp hmem with hmem | hmem
          · exact Or.inl hmem
          · simp only [List.mem_singleton] at hmem
            exact Or.inr ⟨0, by simp only [List.length_cons]; omega, by omega,
              by simpa using hcond.1, by simpa using hcond.2⟩
        · rw [if_neg hcond] at hmem
          exact Or.inl hmem
      · exact Or.inr ⟨k + 1, by simp only [List.length_cons]; omega, by omega,
          by simpa using hlab, by simpa using hth⟩
    · rintro (hmem | ⟨k, hk, hik, hlab, hth⟩)
      · left
        split
        · exact List.mem_append.mpr (Or.inl hmem)
        · exact hmem
      · match k, hik with
        | 0, hik =>
          left
          simp only [List.getD_cons_zero] at hlab hth
          rw [if_pos ⟨hlab, hth⟩]
          exact List.mem_append.mpr (Or.inr (by simp [show i = j by omega]))
        | k + 1, hik =>
          right
          simp only [List.length_cons] at hk
          refine ⟨k, by omega, by omega, by simpa using hlab, by simpa using hth⟩

/-- Elements recorded in the metacluster sets by the document loop come from
the base-cluster vector and are never the unassigned label `-1`. -/
theorem aggLoop_metas (th : ℚ) :
    ∀ (labs : List ℤ) (ss : List ℚ) (vs ls : List Vec) (bs : List ℤ) (i : ℕ)
      (st st' : AggState),
      aggLoop th labs ss vs ls bs i st = some st' →
      ∀ c m, m ∈ st'.metas.getD c [] → m ∈ st.metas.getD c [] ∨ (m ∈ bs ∧ m ≠ -1) := by
  intro labs
  induction labs with
  | nil =>
    intro ss vs ls bs i st st' hrun c m hm
    simp only [aggLoop, Option.some.injEq] at hrun
    subst hrun
    exact Or.inl hm
  | cons lab labs ih =>
    intro ss vs ls bs i st st' hrun c m hm
    match ss, vs, ls, bs with
    | [], _, _, _ =>
      simp only [aggLoop, Option.some.injEq] at hrun
      subst hrun; exact Or.inl hm
    | _ :: _, [], _, _ =>
      simp only [aggLoop, Option.some.injEq] at hrun
      subst hrun; exact Or.inl hm
    | _ :: _, _ :: _, [], _ =>
      simp only [aggLoop, Option.some.injEq] at hrun
      subst hrun; exact Or.inl hm
    | _ :: _, _ :: _, _ :: _, [] =>
      simp only [aggLoop, Option.some.injEq] at hrun
      subst hrun; exact Or.inl hm
    | s :: ss, v :: vs, l :: ls, b :: bs =>
      simp only [aggLoop] at hrun
      by_cases h0 : 0 ≤ lab
      · rw [if_pos h0] at hrun
        by_cases hc : lab.toNat < st.weights.length
        · rw [if_pos hc] at hrun
          rcases ih ss vs ls bs (i + 1) _ st' hrun c m hm with hold | ⟨hmem, hne⟩
          · simp only [aggStep] at hold
            by_cases hcond : th < s ∧ b ≠ -1
            · rw [if_pos hcond] at hold
              by_cases hcc : lab.toNat = c
              · subst hcc
                by_cases hlt : lab.toNat < st.metas.length
                · rw [getD_set_self _ _ _ _ hlt] at hold
                  rcases (mem_setInsert _ m b).mp hold with hold | rfl
                  · exact Or.inl hold
                  · exact Or.inr ⟨List.mem_cons_self _ _, hcond.2⟩
                · rw [List.set_eq_of_length_le (by omega)] at hold
                  exact Or.inl hold
              · rw [getD_set_ne _ _ _ _ _ hcc] at hold
                exact Or.inl hold
            · rw [if_neg hcond] at hold
              exact Or.inl hold
          · exact Or.inr ⟨List.mem_cons_of_mem _ hmem, hne⟩
        · rw [if_neg hc] at hrun
          exact absurd hrun (by simp)
      · rw [if_neg h0] at hrun
        rcases ih ss vs ls bs (i + 1) st st' hrun c m hm with hold | ⟨hmem, hne⟩
        · exact Or.inl hold
        · exact Or.inr ⟨List.mem_cons_of_mem _ hmem, hne⟩

theorem getD_replicate_same {α} : ∀ (n c : ℕ) (a : α), (List.replicate n a).getD c a = a
  | 0, _, _ => rfl
  | n + 1, 0, _ => rfl
  | n + 1, c + 1, a => getD_replicate_same n c a

/-- Characterization of `layer_from_clustering` when every nonnegative label
is in range for the `n_clusters`-sized arrays: the call succeeds, each
centroid row is the weighted sum of its documents divided by their total
weight, and each pointset holds exactly the above-threshold documents of its
cluster. -/
theorem layer_from_clustering_char
    (pv pl : List Vec) (labels : List ℤ) (ss : List ℚ) (bs : List ℤ) (th : ℚ)
    (h1 : labels.length = ss.length) (h2 : labels.length = pv.length)
    (h3 : labels.length = pl.length) (h4 : labels.length = bs.length)
    (hlab : ∀ lab ∈ labels, 0 ≤ lab → lab.toNat < labels.dedup.length - 1) :
    ∃ V L P M,
      layer_from_clustering pv pl labels ss bs th = some (V, L, P, M) ∧
      (∀ c, c < labels.dedup.length - 1 →
        V.getD c [] = vdiv (clusterVecSum labels ss pv c (pv.headD []).length)
            (clusterWeight labels ss c) ∧
        L.getD c [] = vdiv (clusterVecSum labels ss pl c (pl.headD []).length)
            (clusterWeight labels ss c) ∧
        (∀ j, j ∈ P.getD c [] ↔
          j < labels.length ∧ labels.getD j (-1) = (c : ℤ) ∧ th < ss.getD j 0)) := by
  obtain ⟨st', hrun, hv', hl', hw', hp', hchar⟩ :=
    aggLoop_char th labels ss pv pl bs 0
      ⟨List.replicate (labels.dedup.length - 1) (zeros (pv.headD []).length),
        List.replicate (labels.dedup.length - 1) (zeros (pl.headD []).length),
        List.replicate (labels.dedup.length - 1) 0,
        List.replicate (labels.dedup.length - 1) [],
        List.replicate (labels.dedup.length - 1) []⟩
      h1 h2 h3 h4
      (by intro lab hm h0; simpa [List.length_replicate] using hlab lab hm h0)
      (by simp [List.length_replicate]) (by simp [List.length_replicate])
      (by simp [List.length_replicate])
      (by intro c x hx; rw [getD_replicate_same] at hx; simp at hx)
  refine ⟨List.zipWith vdiv st'.avgVecs st'.weights, List.zipWith vdiv st'.avgLocs st'.weights,
    st'.psets, st'.metas, ?_, ?_⟩
  · simp only [layer_from_clustering]
    rw [hrun]
  · intro c hc
    simp only [List.length_replicate] at hv' hl' hw' hp'
    have hcw : c < (List.replicate (labels.dedup.length - 1) (0 : ℚ)).length := by
      simpa [List.length_replicate] using hc
    obtain ⟨e1, e2, e3, e4⟩ := hchar c (by simpa [List.length_replicate] using hc)
    refine ⟨?_, ?_, ?_⟩
    · rw [getD_zipWith vdiv _ _ c [] 0 [] (by omega) (by omega), e1, e3,
        getD_replicate_lt _ _ _ _ hc, getD_replicate_lt _ _ _ _ hc]
      rfl
    · rw [getD_zipWith vdiv _ _ c [] 0 [] (by omega) (by omega), e2, e3,
        getD_replicate_lt _ _ _ _ hc, getD_replicate_lt _ _ _ _ hc]
      rfl
    · intro j
      rw [e4, getD_replicate_same]
      rw [psetFold_mem c th labels ss 0 [] j h1]
      constructor
      · rintro (h | ⟨k, hk, h0k, hlabk, hthk⟩)
        · simp at h
        · exact ⟨by omega, by rwa [show j = k by omega], by rwa [show j = k by omega]⟩
      · rintro ⟨hj, hlabj, hthj⟩
        exact Or.inr ⟨j, hj, by omega, hlabj, hthj⟩

/-- C1 (amended): for label vectors whose labels all lie in
`{-1, 0, …, n_clusters - 1}` with `n_clusters = len(set(labels)) - 1`, the
aggregator returns, for every cluster `c < n_clusters`, a centroid vector and
centroid location equal to the strength-weighted mean of exactly the
documents labelled `c`, and a pointset holding exactly the documents labelled
`c` whose membership strength strictly exceeds the threshold. -/
theorem aggregator_weighted_mean_and_pointsets
    (pv pl : List Vec) (labels : List ℤ) (ss : List ℚ) (bs : List ℤ) (th : ℚ)
    (h1 : labels.length = ss.length) (h2 : labels.length = pv.length)
    (h3 : labels.length = pl.length) (h4 : labels.length = bs.length)
    (hlab : ∀ lab ∈ labels, -1 ≤ lab ∧ lab < ((labels.dedup.length - 1 : ℕ) : ℤ)) :
    ∃ V L P M,
      layer_from_clustering pv pl labels ss bs th = some (V, L, P, M) ∧
      (∀ c, c < labels.dedup.length - 1 →
        V.getD c [] = vdiv (clusterVecSum labels ss pv c (pv.headD []).length)
            (clusterWeight labels ss c) ∧
        L.getD c [] = vdiv (clusterVecSum labels ss pl c (pl.headD []).length)
            (clusterWeight labels ss c) ∧
        (∀ j, j ∈ P.getD c [] ↔
          j < labels.length ∧ labels.getD j (-1) = (c : ℤ) ∧ th < ss.getD j 0)) :=
  layer_from_clustering_char pv pl labels ss bs th h1 h2 h3 h4
    (fun lab hm h0 => by
      have := (hlab lab hm).2
      omega)

/-- C1 witness: the amended theorem applied to a concrete flat clustering
with one cluster and one unassigned document. -/
theorem aggregator_weighted_mean_and_pointsets_witness :
    ∃ V L P M,
      layer_from_clustering [[2], [4]] [[1], [3]] [-1, 0] [1/2, 1] [-1, 0] (1/5) =
        some (V, L, P, M) ∧
      (∀ c, c < ([(-1 : ℤ), 0].dedup.length - 1) →
        V.getD c [] = vdiv (clusterVecSum [-1, 0] [1/2, 1] [[2], [4]] c
              (([[(2 : ℚ)], [4]].headD []).length)) (clusterWeight [-1, 0] [1/2, 1] c) ∧
        L.getD c [] = vdiv (clusterVecSum [-1, 0] [1/2, 1] [[1], [3]] c
              (([[(1 : ℚ)], [3]].headD []).length)) (clusterWeight [-1, 0] [1/2, 1] c) ∧
        (∀ j, j ∈ P.getD c [] ↔
          j < ([(-1 : ℤ), 0] : List ℤ).length ∧ ([(-1 : ℤ), 0] : List ℤ).getD j (-1) = (c : ℤ) ∧
            (1/5 : ℚ) < ([1/2, 1] : List ℚ).getD j 0)) :=
  aggregator_weighted_mean_and_pointsets [[2], [4]] [[1], [3]] [-1, 0] [1/2, 1] [-1, 0] (1/5)
    rfl rfl rfl rfl (by decide)

/-- C1 counterexample: the claim as stated fails for a flat clustering in
which every document is assigned (no `-1` label): `n_clusters` is computed
one too small and the aggregation hits an out-of-bounds write, so no
centroids or pointsets are returned at all. -/
theorem aggregator_no_unassigned_cx :
    layer_from_clustering [[1], [1]] [[0], [0]] [0, 0] [1, 1] [-1, -1] (1/5) = none := by
  decide

/-- Failure lemma for the document loop: with all labels nonnegative and some
label out of range for the accumulator arrays, the loop reaches the
out-of-bounds write and errors. -/
theorem aggLoop_none (th : ℚ) :
    ∀ (labs : List ℤ) (ss : List ℚ) (vs ls : List Vec) (bs : List ℤ) (i : ℕ) (st : AggState),
      labs.length = ss.length → labs.length = vs.length → labs.length = ls.length →
      labs.length = bs.length →
      (∀ lab ∈ labs, 0 ≤ lab) →
      (∃ lab ∈ labs, st.weights.length ≤ lab.toNat) →
      aggLoop th labs ss vs ls bs i st = none := by
  intro labs
  induction labs with
  | nil =>
    intro ss vs ls bs i st _ _ _ _ _ hbad
    obtain ⟨lab, hmem, _⟩ := hbad
    exact absurd hmem (List.not_mem_nil lab)
  | cons lab labs ih =>
    intro ss vs ls bs i st hss hvs hls hbs hnn hbad
    match ss, vs, ls, bs, hss, hvs, hls, hbs with
    | s :: ss, v :: vs, l :: ls, b :: bs, hss, hvs, hls, hbs =>
    simp only [List.length_cons, Nat.succ.injEq] at hss hvs hls hbs
    have h0 : 0 ≤ lab := hnn lab (List.mem_cons_self _ _)
    simp only [aggLoop]
    rw [if_pos h0]
    by_cases hc : lab.toNat < st.weights.length
    · rw [if_pos hc]
      obtain ⟨x, hx, hxb⟩ := hbad
      rcases List.mem_cons.mp hx with rfl | hx
      · omega
      · exact ih ss vs ls bs (i + 1) _ hss hvs hls hbs
          (fun y hy => hnn y (List.mem_cons_of_mem _ hy))
          ⟨x, hx, by simpa [aggStep, List.length_set] using hxb⟩
    · rw [if_neg hc]

/-- C10: for every nonempty flat clustering in which every document is
assigned (no `-1` label), `n_clusters = len(set(labels)) - 1` is one smaller
than the number of distinct labels, so the write for the highest-numbered
cluster indexes out of bounds and the guarded error branch of the embedding
is reached. -/
theorem aggregator_all_assigned_out_of_bounds
    (pv pl : List Vec) (labels : List ℤ) (ss : List ℚ) (bs : List ℤ) (th : ℚ)
    (h1 : labels.length = ss.length) (h2 : labels.length = pv.length)
    (h3 : labels.length = pl.length) (h4 : labels.length = bs.length)
    (hne : labels ≠ [])
    (hnn : ∀ lab ∈ labels, 0 ≤ lab) :
    layer_from_clustering pv pl labels ss bs th = none := by
  obtain ⟨m, hmax⟩ : ∃ m : ℤ, labels.maximum = (m : WithBot ℤ) := by
    cases h : labels.maximum with
    | bot => exact absurd (List.maximum_eq_bot.mp h) hne
    | coe m => exact ⟨m, rfl⟩
  have hmmem : m ∈ labels := List.maximum_mem hmax
  have hmle : ∀ x ∈ labels, x ≤ m := fun x hx => List.le_maximum_of_mem hx hmax
  have hm0 : 0 ≤ m := hnn m hmmem
  have hsub : labels.dedup.toFinset ⊆ Finset.Icc (0 : ℤ) m := by
    intro x hx
    rw [List.mem_toFinset, List.mem_dedup] at hx
    exact Finset.mem_Icc.mpr ⟨hnn x hx, hmle x hx⟩
  have hcard : labels.dedup.length ≤ m.toNat + 1 := by
    have h5 := Finset.card_le_card hsub
    rw [List.toFinset_card_of_nodup (List.nodup_dedup labels), Int.card_Icc] at h5
    omega
  have hbound : labels.dedup.length - 1 ≤ m.toNat := by omega
  have hnone := aggLoop_none th labels ss pv pl bs 0
    ⟨List.replicate (labels.dedup.length - 1) (zeros (pv.headD []).length),
      List.replicate (labels.dedup.length - 1) (zeros (pl.headD []).length),
      List.replicate (labels.dedup.length - 1) 0,
      List.replicate (labels.dedup.length - 1) [],
      List.replicate (labels.dedup.length - 1) []⟩
    h1 h2 h3 h4 hnn ⟨m, hmmem, by simpa [List.length_replicate] using hbound⟩
  simp only [layer_from_clustering]
  rw [hnone]

/-- C10 witness: a concrete all-assigned labelling errors out. -/
theorem aggregator_all_assigned_out_of_bounds_witness :
    layer_from_clustering [[3]] [[5]] [0] [1] [0] (1/5) = none :=
  aggregator_all_assigned_out_of_bounds [[3]] [[5]] [0] [1] [0] (1/5)
    rfl rfl rfl rfl (by decide) (by decide)

/-- Invariant lemma for the retention loop of `diversify`: with a nonempty,
strictly increasing retained list strictly below the cap, whose members all
precede the strictly increasing remaining candidates, the result keeps the
head, stays strictly increasing, only contains old or scanned indices and
never exceeds the cap. -/
theorem diversifyAux_props {α} [LinearOrderedField α] (dq : ℕ → α) (dp : ℕ → ℕ → α)
    (alpha : α) (maxC : ℕ) :
    ∀ (rest retained : List ℕ),
      retained ≠ [] → retained.length < maxC →
      List.Pairwise (· < ·) retained →
      (∀ j ∈ retained, ∀ k ∈ rest, j < k) →
      List.Pairwise (· < ·) rest →
      (diversifyAux dq dp alpha maxC retained rest).head? = retained.head? ∧
      List.Pairwise (· < ·) (diversifyAux dq dp alpha maxC retained rest) ∧
      (∀ x ∈ diversifyAux dq dp alpha maxC retained rest, x ∈ retained ∨ x ∈ rest) ∧
      (diversifyAux dq dp alpha maxC retained rest).length ≤ maxC := by
  intro rest
  induction rest with
  | nil =>
    intro retained hne hlen hpr _ _
    exact ⟨rfl, hpr, fun x hx => Or.inl hx, Nat.le_of_lt hlen⟩
  | cons i rest ih =>
    intro retained hne hlen hpr hsep hprest
    rw [List.pairwise_cons] at hprest
    obtain ⟨hirest, hprest'⟩ := hprest
    have hpr' : List.Pairwise (· < ·) (retained ++ [i]) := by
      rw [List.pairwise_append]
      refine ⟨hpr, List.pairwise_singleton _ _, fun a ha b hb => ?_⟩
      simp only [List.mem_singleton] at hb
      simpa only [hb] using hsep a ha i (List.mem_cons_self _ _)
    have hhead : (retained ++ [i]).head? = retained.head? := by
      cases retained with
      | nil => exact absurd rfl hne
      | cons a t => rfl
    simp only [diversifyAux]
    by_cases hcond : ∀ j ∈ retained, alpha * dq i ≤ dp i j
    · rw [if_pos hcond]
      by_cases hcap : maxC ≤ retained.length + 1
      · rw [if_pos hcap]
        refine ⟨hhead, hpr', fun x hx => ?_, ?_⟩
        · rcases List.mem_append.mp hx with hx | hx
          · exact Or.inl hx
          · simp only [List.mem_singleton] at hx
            subst hx
            exact Or.inr (List.mem_cons_self _ _)
        · simp only [List.length_append, List.length_singleton]
          omega
      · rw [if_neg hcap]
        obtain ⟨hh, hp, hm, hl⟩ := ih (retained ++ [i]) (by simp)
          (by simp only [List.length_append, List.length_singleton]; omega) hpr'
          (by
            intro j hj k hk
            rcases List.mem_append.mp hj with hj | hj
            · exact hsep j hj k (List.mem_cons_of_mem _ hk)
            · simp only [List.mem_singleton] at hj
              subst hj
              exact hirest k hk)
          hprest'
        refine ⟨by rw [hh, hhead], hp, fun x hx => ?_, hl⟩
        rcases hm x hx with hx | hx
        · rcases List.mem_append.mp hx with hx | hx
          · exact Or.inl hx
          · simp only [List.mem_singleton] at hx
            subst hx
            exact Or.inr (List.mem_cons_self _ _)
        · exact Or.inr (List.mem_cons_of_mem _ hx)
    · rw [if_neg hcond]
      obtain ⟨hh, hp, hm, hl⟩ := ih retained hne hlen hpr
        (fun j hj k hk => hsep j hj k (List.mem_cons_of_mem _ hk)) hprest'
      exact ⟨hh, hp, fun x hx => (hm x hx).imp id (List.mem_cons_of_mem _), hl⟩

/-- C2 (amended): for every query, every nonempty candidate sequence, every
alpha, and every cap `max_candidates ≥ 2` (in particular the default 16), the
output of `diversify` is a strictly increasing sequence of candidate indices,
begins with index 0, and its length never exceeds the cap.  (For
`max_candidates ≤ 1` the cap can be overshot, see the counterexample.) -/
theorem diversify_output_props {α} [LinearOrderedField α] (dq : ℕ → α) (dp : ℕ → ℕ → α)
    (numCandidates : ℕ) (alpha : α) (maxCandidates : ℕ)
    (hn : 1 ≤ numCandidates) (hcap : 2 ≤ maxCandidates) :
    (diversify dq dp numCandidates alpha maxCandidates).head? = some 0 ∧
    List.Pairwise (· < ·) (diversify dq dp numCandidates alpha maxCandidates) ∧
    (∀ x ∈ diversify dq dp numCandidates alpha maxCandidates, x < numCandidates) ∧
    (diversify dq dp numCandidates alpha maxCandidates).length ≤ maxCandidates := by
  obtain ⟨hh, hp, hm, hl⟩ := diversifyAux_props dq dp alpha maxCandidates
    (List.range' 1 (numCandidates - 1)) [0] (by simp) (by simp; omega)
    (List.pairwise_singleton _ _)
    (by
      intro j hj k hk
      simp only [List.mem_singleton] at hj
      subst hj
      exact lt_of_lt_of_le Nat.one_pos (List.mem_range'_1.mp hk).1)
    (List.pairwise_lt_range' 1 (numCandidates - 1))
  refine ⟨hh, hp, fun x hx => ?_, hl⟩
  rcases hm x hx with hx | hx
  · simp only [List.mem_singleton] at hx
    omega
  · have := List.mem_range'_1.mp hx
    omega

/-- C2 witness: the amended theorem applied to a concrete three-candidate
instance with the default cap. -/
theorem diversify_output_props_witness :
    (diversify (fun _ => (0 : ℚ)) (fun _ _ => 0) 3 1 16).head? = some 0 ∧
    List.Pairwise (· < ·) (diversify (fun _ => (0 : ℚ)) (fun _ _ => 0) 3 1 16) ∧
    (∀ x ∈ diversify (fun _ => (0 : ℚ)) (fun _ _ => 0) 3 1 16, x < 3) ∧
    (diversify (fun _ => (0 : ℚ)) (fun _ _ => 0) 3 1 16).length ≤ 16 :=
  diversify_output_props (fun _ => (0 : ℚ)) (fun _ _ => 0) 3 1 16 (by decide) (by decide)

/-- C2 counterexample: with cap `max_candidates = 1` and two candidates at
distance 0 from the query and from each other, the second candidate is
accepted before the cap test fires, so the output has length 2 > 1: the
claim's "length never exceeds the cap" fails for this cap. -/
theorem diversify_cap_overshoot_cx :
    ¬ ((diversify (fun _ => (0 : ℚ)) (fun _ _ => 0) 2 1 1).length ≤ 1) := by decide

theorem dotR_cons (a b : ℝ) (u v : List ℝ) : dotR (a :: u) (b :: v) = a * b + dotR u v := rfl

theorem dotR_comm : ∀ u v : List ℝ, dotR u v = dotR v u
  | [], [] => rfl
  | [], _ :: _ => rfl
  | _ :: _, [] => rfl
  | a :: u, b :: v => by rw [dotR_cons, dotR_cons, mul_comm, dotR_comm u v]

theorem cosineDist_comm (u v : List ℝ) : cosineDist u v = cosineDist v u := by
  unfold cosineDist
  rw [dotR_comm u v, mul_comm]

/-- Two-candidate retention pattern of `diversify`: the first scanned
candidate passes the redundancy test against retained index 0, the second is
strictly closer to retained index 1 than to the query and is rejected. -/
theorem diversifyAux_two_step {α} [LinearOrderedField α] (dq : ℕ → α) (dp : ℕ → ℕ → α)
    (h1 : 1 * dq 1 ≤ dp 1 0) (h2 : dp 2 1 < 1 * dq 2) :
    diversifyAux dq dp 1 16 [0] [1, 2] = [0, 1] := by
  have hq1 : dq 1 ≤ dp 1 0 := by linarith
  have hq2 : dp 2 1 < dq 2 := by linarith
  norm_num [diversifyAux]
  rw [if_pos hq1,
    if_neg (fun hc : dq 2 ≤ dp 2 0 ∧ dq 2 ≤ dp 2 1 => absurd hc.2 (not_le.mpr hq2))]

/-- Evaluation of the spec scenario `diversify(query=[1,0],
candidates=[[1,0],[0.99,0.01],[-1,0]], alpha=1.0)`: the query equals
candidate 0, so candidate 1's cosine distance to retained index 0 equals its
distance to the query and the strict rejection test does not fire (1 is
retained); candidate 2 is then strictly closer to retained index 1 than its
distance 2 to the query, and is rejected.  The output is `[0, 1]`. -/
theorem diversify_scenario_eval :
    diversifyVec [1, 0] [[1, 0], [99/100, 1/100], [-1, 0]] 1 16 = [0, 1] := by
  have d1 : dotR [(1 : ℝ), 0] [1, 0] = 1 := by norm_num [dotR]
  have d2 : dotR [(1 : ℝ), 0] [-1, 0] = -1 := by norm_num [dotR]
  have d3 : dotR [(-1 : ℝ), 0] [-1, 0] = 1 := by norm_num [dotR]
  have d4 : dotR [(-1 : ℝ), 0] [99/100, 1/100] = -(99/100) := by norm_num [dotR]
  have d5 : dotR [(99/100 : ℝ), 1/100] [99/100, 1/100] = 9802/10000 := by norm_num [dotR]
  have hs : (99/100 : ℝ) < Real.sqrt (9802/10000) :=
    (Real.lt_sqrt (by norm_num)).mpr (by norm_num)
  have hspos : (0 : ℝ) < Real.sqrt (9802/10000) := lt_trans (by norm_num) hs
  have h1 : 1 * cosineDist [(1 : ℝ), 0] [99/100, 1/100] ≤
      cosineDist [(99/100 : ℝ), 1/100] [1, 0] := by
    rw [one_mul, cosineDist_comm]
  have h2 : cosineDist [(-1 : ℝ), 0] [99/100, 1/100] < 1 * cosineDist [(1 : ℝ), 0] [-1, 0] := by
    have hdiv : (99/100 : ℝ) / Real.sqrt (9802/10000) < 1 := (div_lt_one hspos).mpr hs
    simp only [cosineDist, d2, d1, d3, d4, d5, Real.sqrt_one, one_mul, mul_one]
    rw [neg_div]
    linarith
  show diversifyAux
      (fun i => cosineDist [1, 0] ([[(1 : ℝ), 0], [99/100, 1/100], [-1, 0]].getD i []))
      (fun i j => cosineDist ([[(1 : ℝ), 0], [99/100, 1/100], [-1, 0]].getD i [])
        ([[(1 : ℝ), 0], [99/100, 1/100], [-1, 0]].getD j [])) 1 16 [0] (List.range' 1 2) =
      [0, 1]
  exact diversifyAux_two_step _ _ h1 h2

/-- C6 (amended): on `query=[1,0]`, `candidates=[[1,0],[0.99,0.01],[-1,0]]`,
`alpha=1.0` and the default cap, `diversify` retains index 0, retains index 1
(its distance to retained index 0 exactly equals its distance to the query,
and the rejection test is strict), rejects index 2 (retained index 1 is
strictly closer to it than its query distance), returning exactly `[0, 1]`. -/
theorem diversify_scenario_output :
    diversifyVec [1, 0] [[1, 0], [99/100, 1/100], [-1, 0]] 1 16 = [0, 1] :=
  diversify_scenario_eval

/-- C6 counterexample: the claimed output `[0, 2]` is wrong for this input. -/
theorem diversify_scenario_cx :
    diversifyVec [1, 0] [[1, 0], [99/100, 1/100], [-1, 0]] 1 16 ≠ [0, 2] := by
  rw [diversify_scenario_eval]
  decide

theorem argsort_two_mem {α} [LinearOrder α] (f : ℕ → α) : 0 ∈ (argsort f 2).take 16 := by
  unfold argsort
  have h2 : List.range 2 = [0, 1] := rfl
  rw [h2]
  simp only [List.insertionSort, List.orderedInsert]
  split
  · simp
  · simp

/-- C5 (amended): the per-layer neighbor table of `fit_clusters` is, for each
cluster, the first K entries of the argsort of its cosine-distance row over
ALL clusters of the layer - including the cluster itself; whenever every
other cluster is at strictly greater distance than the cluster's own
self-distance, the cluster is the FIRST entry of its own neighbor list
(rather than absent from it). -/
theorem neighbor_row_head_self {α} [LinearOrder α] (dist : ℕ → ℕ → α) (n K i : ℕ)
    (hi : i < n) (hK : 1 ≤ K)
    (hmin : ∀ j, j < n → j ≠ i → dist i i < dist i j) :
    ((layer_cluster_neighbours dist n K).getD i []).head? = some i := by
  have hrow : (layer_cluster_neighbours dist n K).getD i [] = (argsort (dist i) n).take K := by
    unfold layer_cluster_neighbours
    rw [List.getD_eq_getElem _ _ (by simpa using hi), List.getElem_map]
    rw [List.getElem_range]
  haveI h1 : IsTotal ℕ (fun a b => dist i a ≤ dist i b) := ⟨fun a b => le_total _ _⟩
  haveI h2 : IsTrans ℕ (fun a b => dist i a ≤ dist i b) := ⟨fun a b c => le_trans⟩
  have hsorted : List.Sorted (fun a b => dist i a ≤ dist i b) (argsort (dist i) n) :=
    List.sorted_insertionSort _ _
  have hperm : (argsort (dist i) n).Perm (List.range n) :=
    List.perm_insertionSort (fun a b => dist i a ≤ dist i b) (List.range n)
  have hmem : i ∈ argsort (dist i) n := hperm.mem_iff.mpr (List.mem_range.mpr hi)
  rw [hrow]
  cases h : argsort (dist i) n with
  | nil => rw [h] at hmem; exact absurd hmem (List.not_mem_nil i)
  | cons hd tl =>
    have hhd : hd = i := by
      by_contra hne
      have hhdn : hd < n := List.mem_range.mp
        (hperm.mem_iff.mp (h ▸ List.mem_cons_self hd tl))
      have hlt := hmin hd hhdn (fun he => hne he)
      have hitl : i ∈ tl := by
        rw [h] at hmem
        rcases List.mem_cons.mp hmem with h1 | h1
        · exact absurd h1.symm hne
        · exact h1
      have hr := List.rel_of_sorted_cons (h ▸ hsorted) i hitl
      exact absurd hr (not_le.mpr hlt)
    subst hhd
    match K, hK with
    | K + 1, _ => rfl

/-- C5 witness: a two-cluster layer whose cosine-distance matrix has zero
diagonal and distance 1 off the diagonal (the matrix of centroids `[1,0]`
and `[0,1]`): cluster 0 heads its own neighbor row. -/
theorem neighbor_row_head_self_witness :
    ((layer_cluster_neighbours (fun i j => if i = j then (0 : ℚ) else 1) 2 16).getD
      0 []).head? = some 0 :=
  neighbor_row_head_self (fun i j => if i = j then (0 : ℚ) else 1) 2 16 0
    (by decide) (by decide) (by decide)

/-- C5 counterexample: for a layer with centroid vectors `[1,0]` and `[0,1]`,
cluster 0 DOES appear in its own neighbor list, contradicting the claim that
a cluster never appears in its own list. -/
theorem neighbor_table_self_cx :
    0 ∈ ((layer_cluster_neighbours
        (fun i j => cosineDist ([[(1 : ℝ), 0], [0, 1]].getD i [])
          ([[(1 : ℝ), 0], [0, 1]].getD j [])) 2 16).getD 0 []) :=
  argsort_two_mem _

theorem getD_append_left {α} : ∀ (l1 l2 : List α) (k : ℕ) (d : α), k < l1.length →
    (l1 ++ l2).getD k d = l1.getD k d
  | a :: t, l2, 0, d, _ => rfl
  | a :: t, l2, k + 1, d, h => getD_append_left t l2 k d (Nat.lt_of_succ_lt_succ h)

theorem getD_append_len {α} : ∀ (l1 : List α) (x : α) (d : α),
    (l1 ++ [x]).getD l1.length d = x
  | [], x, d => rfl
  | a :: t, x, d => getD_append_len t x d

theorem maskFilter_map_pred {β} (f : β → Bool) :
    ∀ (xs : List β) (y : β), y ∈ maskFilter (xs.map f) xs → f y = true := by
  intro xs
  induction xs with
  | nil => intro y hy; simp [maskFilter, List.map_nil] at hy
  | cons x xs ih =>
    intro y hy
    simp only [List.map_cons, maskFilter] at hy
    by_cases hf : f x
    · rw [if_pos hf] at hy
      rcases List.mem_cons.mp hy with rfl | hy
      · exact hf
      · exact ih y hy
    · rw [if_neg hf] at hy
      exact ih y hy

theorem maskFilter_subset {β} : ∀ (mask : List Bool) (xs : List β) (y : β),
    y ∈ maskFilter mask xs → y ∈ xs := by
  intro mask
  induction mask with
  | nil => intro xs y hy; simp [maskFilter] at hy
  | cons b bs ih =>
    intro xs y hy
    match xs with
    | [] => simp [maskFilter] at hy
    | x :: xs =>
      simp only [maskFilter] at hy
      by_cases hb : b = true
      · rw [if_pos hb] at hy
        rcases List.mem_cons.mp hy with rfl | hy
        · exact List.mem_cons_self _ _
        · exact List.mem_cons_of_mem _ (ih xs y hy)
      · rw [if_neg hb] at hy
        exact List.mem_cons_of_mem _ (ih xs y hy)

/-- Every metacluster element produced by one aggregation call is a
non-`-1` entry of the base-cluster vector that was passed in. -/
theorem layer_from_metas_mem (pv pl : List Vec) (labels : List ℤ) (ss : List ℚ)
    (bs : List ℤ) (th : ℚ) (V L : List Vec) (P : List (List ℕ)) (M : List (List ℤ))
    (h : layer_from_clustering pv pl labels ss bs th = some (V, L, P, M)) :
    ∀ mlist ∈ M, ∀ x ∈ mlist, x ∈ bs ∧ x ≠ -1 := by
  simp only [layer_from_clustering] at h
  split at h
  · exact absurd h (by simp)
  · next st hagg =>
    simp only [Option.some.injEq, Prod.mk.injEq] at h
    obtain ⟨hV, hL, hP, hM⟩ := h
    intro mlist hml x hx
    rw [← hM] at hml
    obtain ⟨c, hc, hceq⟩ := List.mem_iff_getElem.mp hml
    have hmm := aggLoop_metas th labels ss pv pl bs 0 _ st hagg c x
      (by rw [List.getD_eq_getElem _ _ hc, hceq]; exact hx)
    rcases hmm with habs | hgood
    · rw [getD_replicate_same] at habs
      simp at habs
    · exact hgood

/-- Invariant of the layer loop: every non-base accumulated layer only keeps
clusters whose metacluster set has more than one element. -/
theorem bclLoop_metas_ge_two (pv pl : List Vec) (condense : ℕ → List ℤ × List ℚ)
    (mc : ℕ) (th q : ℚ) (bc : List ℤ) :
    ∀ (fuel : ℕ) (clusters : List ℤ) (probs : List ℚ) (nL : ℕ) (isBase : Bool)
      (acc layers : List BCLayer),
      (isBase = true → acc = []) →
      (∀ k, 1 ≤ k → k < acc.length → ∀ meta ∈ (acc.getD k default).metas, 2 ≤ meta.length) →
      bclLoop pv pl condense mc th q bc fuel clusters probs nL isBase acc = some layers →
      (∀ k, 1 ≤ k → k < layers.length → ∀ meta ∈ (layers.getD k default).metas,
        2 ≤ meta.length) := by
  intro fuel
  induction fuel with
  | zero =>
    intro clusters probs nL isBase acc layers _ _ hrun
    simp [bclLoop] at hrun
  | succ fuel ih =>
    intro clusters probs nL isBase acc layers hbase hacc hrun
    simp only [bclLoop] at hrun
    by_cases hnl : nL < mc
    · rw [if_pos hnl] at hrun
      obtain rfl : acc = layers := Option.some.inj hrun
      exact hacc
    · rw [if_neg hnl] at hrun
      cases hlf : layer_from_clustering pv pl clusters probs bc th with
      | none => rw [hlf] at hrun; exact absurd hrun (by simp)
      | some res =>
        obtain ⟨v, l, p, m⟩ := res
        rw [hlf] at hrun
        simp only at hrun
        cases isBase with
        | true =>
          obtain rfl : acc = [] := hbase rfl
          simp only [if_true] at hrun
          cases hq : npQuantileInt (p.map List.length) q with
          | none => rw [hq] at hrun; exact absurd hrun (by simp)
          | some mcs =>
            rw [hq] at hrun
            refine ih _ _ _ false _ layers (by simp) ?_ hrun
            intro k hk1 hklen meta hmeta
            simp only [List.nil_append, List.length_cons, List.length_nil] at hklen
            omega
        | false =>
          simp only [Bool.false_eq_true, if_neg (fun h : False => h)] at hrun
          cases hq : npQuantileInt ((maskFilter (m.map fun x => decide (1 < x.length)) p).map
              List.length) q with
          | none => rw [hq] at hrun; exact absurd hrun (by simp)
          | some mcs =>
            rw [hq] at hrun
            refine ih _ _ _ false _ layers (by simp) ?_ hrun
            intro k hk1 hklen meta hmeta
            rw [List.length_append, List.length_singleton] at hklen
            by_cases hkacc : k < acc.length
            · rw [getD_append_left _ _ _ _ hkacc] at hmeta
              exact hacc k hk1 hkacc meta hmeta
            · have hkeq : k = acc.length := by omega
              subst hkeq
              rw [getD_append_len] at hmeta
              have := maskFilter_map_pred (fun x : List ℤ => decide (1 < x.length)) m meta hmeta
              simp only [decide_eq_true_eq] at this
              omega

/-- Invariant of the layer loop: every metacluster element of every
accumulated layer is a non-`-1` label of the fixed base-cluster vector. -/
theorem bclLoop_metas_from_base (pv pl : List Vec) (condense : ℕ → List ℤ × List ℚ)
    (mc : ℕ) (th q : ℚ) (bc : List ℤ) :
    ∀ (fuel : ℕ) (clusters : List ℤ) (probs : List ℚ) (nL : ℕ) (isBase : Bool)
      (acc layers : List BCLayer),
      (∀ layer ∈ acc, ∀ meta ∈ layer.metas, ∀ x ∈ meta, x ∈ bc ∧ x ≠ -1) →
      bclLoop pv pl condense mc th q bc fuel clusters probs nL isBase acc = some layers →
      ∀ layer ∈ layers, ∀ meta ∈ layer.metas, ∀ x ∈ meta, x ∈ bc ∧ x ≠ -1 := by
  intro fuel
  induction fuel with
  | zero =>
    intro clusters probs nL isBase acc layers _ hrun
    simp [bclLoop] at hrun
  | succ fuel ih =>
    intro clusters probs nL isBase acc layers hacc hrun
    simp only [bclLoop] at hrun
    by_cases hnl : nL < mc
    · rw [if_pos hnl] at hrun
      obtain rfl : acc = layers := Option.some.inj hrun
      exact hacc
    · rw [if_neg hnl] at hrun
      cases hlf : layer_from_clustering pv pl clusters probs bc th with
      | none => rw [hlf] at hrun; exact absurd hrun (by simp)
      | some res =>
        obtain ⟨v, l, p, m⟩ := res
        rw [hlf] at hrun
        simp only at hrun
        have hnew : ∀ meta ∈ m, ∀ x ∈ meta, x ∈ bc ∧ x ≠ -1 :=
          layer_from_metas_mem pv pl clusters probs bc th v l p m hlf
        cases isBase with
        | true =>
          simp only [if_true] at hrun
          cases hq : npQuantileInt (p.map List.length) q with
          | none => rw [hq] at hrun; exact absurd hrun (by simp)
          | some mcs =>
            rw [hq] at hrun
            refine ih _ _ _ false _ layers ?_ hrun
            intro layer hlayer meta hmeta x hx
            rcases List.mem_append.mp hlayer with hlayer | hlayer
            · exact hacc layer hlayer meta hmeta x hx
            · simp only [List.mem_singleton] at hlayer
              subst hlayer
              exact hnew meta hmeta x hx
        | false =>
          simp only [Bool.false_eq_true, if_neg (fun h : False => h)] at hrun
          cases hq : npQuantileInt ((maskFilter (m.map fun x => decide (1 < x.length)) p).map
              List.length) q with
          | none => rw [hq] at hrun; exact absurd hrun (by simp)
          | some mcs =>
            rw [hq] at hrun
            refine ih _ _ _ false _ layers ?_ hrun
            intro layer hlayer meta hmeta x hx
            rcases List.mem_append.mp hlayer with hlayer | hlayer
            · exact hacc layer hlayer meta hmeta x hx
            · simp only [List.mem_singleton] at hlayer
              subst hlayer
              exact hnew meta (maskFilter_subset _ _ _ hmeta) x hx

/-- C3 (amended): for every terminating run of `build_cluster_layers`, in
every layer except the base layer every retained cluster's metacluster set
has size ≥ 2 (the size-≤-1 clusters are dropped by the filter).  No
monotonicity of per-layer cluster counts is enforced by the code; see the
counterexample. -/
theorem build_cluster_layers_metas_ge_two (pv pl : List Vec)
    (condense : ℕ → List ℤ × List ℚ) (mc bmcs : ℕ) (th q : ℚ) (fuel : ℕ)
    (layers : List BCLayer)
    (hrun : build_cluster_layers pv pl condense mc bmcs th q fuel = some layers) :
    ∀ k, 1 ≤ k → k < layers.length →
      ∀ meta ∈ (layers.getD k default).metas, 2 ≤ meta.length :=
  bclLoop_metas_ge_two pv pl condense mc th q (condense bmcs).1 fuel
    (condense bmcs).1 (condense bmcs).2
    (((condense bmcs).1.filter (fun x => decide (0 ≤ x))).dedup.length) true [] layers
    (fun _ => rfl)
    (by intro k hk1 hklen meta hmeta; simp at hklen) hrun

/-- C3 witness: the amended theorem applied to the concrete oracle
`condenseIncr`; the first coarse layer's first metacluster set has size 2. -/
theorem build_cluster_layers_metas_ge_two_witness :
    2 ≤ ((((build_cluster_layers (List.replicate 7 [1]) (List.replicate 7 [1]) condenseIncr 2 10
        (1/5) (4/5) 5).getD []).getD 1 default).metas.getD 0 []).length := by
  have h := build_cluster_layers_metas_ge_two (List.replicate 7 [1]) (List.replicate 7 [1])
    condenseIncr 2 10 (1/5) (4/5) 5
    ((build_cluster_layers (List.replicate 7 [1]) (List.replicate 7 [1]) condenseIncr 2 10
      (1/5) (4/5) 5).getD []) (by decide)
  exact h 1 (by decide) (by decide) _ (by decide)

/-- C3 counterexample: a terminating run (contract-respecting condensation
oracle `condenseIncr`) whose base layer has 2 clusters and whose next,
coarser layer has 3 clusters: the per-layer cluster count INCREASES, so it is
neither monotonically non-increasing nor strictly decreasing. -/
theorem build_cluster_layers_counts_increase_cx :
    (build_cluster_layers (List.replicate 7 [1]) (List.replicate 7 [1]) condenseIncr 2 10
      (1/5) (4/5) 5).map (fun L => L.map (fun layer => layer.vecs.length)) =
      some [2, 3] := by
  decide

/-- C4 (amended): in every terminating run of `build_cluster_layers`, each
non-base layer's metacluster sets contain labels of the BASE layer's flat
clustering (the label vector of the first condensation), never `-1`: the
source fixes `base_clusters` before the loop (line 94) and never reassigns
it, so metaclusters of every layer reference layer 0, not the immediately
finer layer. -/
theorem build_cluster_layers_metas_are_base_labels (pv pl : List Vec)
    (condense : ℕ → List ℤ × List ℚ) (mc bmcs : ℕ) (th q : ℚ) (fuel : ℕ)
    (layers : List BCLayer)
    (hrun : build_cluster_layers pv pl condense mc bmcs th q fuel = some layers) :
    ∀ k, 1 ≤ k → k < layers.length → ∀ meta ∈ (layers.getD k default).metas,
      ∀ x ∈ meta, x ∈ (condense bmcs).1 ∧ x ≠ -1 := by
  intro k hk1 hklen meta hmeta x hx
  have h := bclLoop_metas_from_base pv pl condense mc th q (condense bmcs).1 fuel
    (condense bmcs).1 (condense bmcs).2
    (((condense bmcs).1.filter (fun x => decide (0 ≤ x))).dedup.length) true [] layers
    (by simp) hrun
  exact h (layers.getD k default)
    (by rw [List.getD_eq_getElem _ _ hklen]; exact List.getElem_mem _) meta hmeta x hx

/-- C4 witness: in the three-layer run of the oracle `condenseDeep`, the
element 2 of the coarsest layer's first metacluster set is a non-unassigned
label of the base clustering. -/
theorem build_cluster_layers_metas_are_base_labels_witness :
    (2 : ℤ) ∈ (condenseDeep 10).1 ∧ (2 : ℤ) ≠ -1 :=
  build_cluster_layers_metas_are_base_labels (List.replicate 11 [1])
    (List.replicate 11 [1]) condenseDeep 2 10 (1/5) (4/5) 6
    ((build_cluster_layers (List.replicate 11 [1]) (List.replicate 11 [1]) condenseDeep 2 10
      (1/5) (4/5) 6).getD []) (by decide) 2 (by decide) (by decide) [2, 3] (by decide) 2
    (by decide)

/-- C4 counterexample: in the `condenseDeep` run, layer 2's metacluster sets
are `[[2,3],[3,4]]`, but `2` is NOT a cluster label of layer 1's flat
clustering (the labelling `condenseDeep 2` used to build layer 1 only has
labels `0`, `1` and `-1`): the metaclusters reference the base layer, not
the immediately finer layer. -/
theorem build_cluster_layers_metas_not_previous_cx :
    (build_cluster_layers (List.replicate 11 [1]) (List.replicate 11 [1]) condenseDeep 2 10
      (1/5) (4/5) 6).map (fun L => L.map (fun layer => layer.metas)) =
      some [[[0], [1], [2], [3], [4]], [[0, 1], [2, 3, 4]], [[2, 3], [3, 4]]] ∧
    (2 : ℤ) ∉ (condenseDeep 2).1 :=
  ⟨by decide, by decide⟩

/-- With a 1-token context window and 2-token prompts the shrink loop spins:
the stored `prompt_length` stays 2 at every re-entry. -/
theorem shrink_key : ∀ (fuel reduced : ℕ) (prompt : List ℕ),
    shrinkLoop (fun _ _ => [0, 0]) 1 0 fuel reduced prompt 2 = none := by
  intro fuel
  induction fuel with
  | zero => intro reduced prompt; rfl
  | succ fuel ih =>
    intro reduced prompt
    simp only [shrinkLoop]
    rw [if_pos (by omega : (1 : ℕ) < 2)]
    split
    · exact ih _ _
    · exact ih _ _

/-- C9 exhibit (code bug): with a context window of one token and a prompt
builder whose prompts - the zero-document prompt included - always tokenize
to two tokens, the shrink-and-retry loop of `fit_base_level_prompts` never
terminates: the quota drops below one and the prompt is truncated, but the
stored `prompt_length` is never recomputed from the truncated prompt, so the
`while` condition re-fires and the loop rebuilds the same over-long
zero-document prompt forever (for every fuel the embedding returns `none`),
instead of exiting after the truncation (or raising, as the function's own
docstring promises). -/
theorem fit_base_prompts_shrink_loop_diverges :
    ∀ (fuel maxDocs : ℕ),
      fit_prompt_for_cluster (fun _ _ => [0, 0]) 1 0 maxDocs fuel = none := by
  intro fuel maxDocs
  exact shrink_key fuel maxDocs _

/-- The re-prompt loop makes at most `k` further attempts. -/
theorem remedy_bound (gen : ℕ → String) (normalize : String → String) (uniq : List String) :
    ∀ (k attempts : ℕ) (name : String),
      (remedyAttempts gen normalize uniq k attempts name).2 ≤ attempts + k := by
  intro k
  induction k with
  | zero => intro attempts name; exact Nat.le_add_right _ _
  | succ k ih =>
    intro attempts name
    simp only [remedyAttempts]
    split
    · exact le_trans (ih (attempts + 1) _) (by omega)
    · exact Nat.le_add_right _ _

/-- If the current name is fresh, or some reachable attempt of the oracle
produces a name outside the used set, the re-prompt loop returns a name
outside the used set. -/
theorem remedy_found (gen : ℕ → String) (normalize : String → String) (uniq : List String) :
    ∀ (k attempts : ℕ) (name : String),
      (name ∉ uniq ∨ ∃ m, m < k ∧ normalize (gen (attempts + m)) ∉ uniq) →
      (remedyAttempts gen normalize uniq k attempts name).1 ∉ uniq := by
  intro k
  induction k with
  | zero =>
    intro attempts name h
    rcases h with h | ⟨m, hm, _⟩
    · exact h
    · omega
  | succ k ih =>
    intro attempts name h
    by_cases hn : name ∈ uniq
    · simp only [remedyAttempts, if_pos hn]
      apply ih
      rcases h with h | ⟨m, hm, hgen⟩
      · exact absurd hn h
      · match m, hm, hgen with
        | 0, _, hgen => exact Or.inl (by simpa using hgen)
        | m + 1, hm, hgen =>
          refine Or.inr ⟨m, by omega, ?_⟩
          rw [show attempts + 1 + m = attempts + (m + 1) by omega]
          exact hgen
    · simp only [remedyAttempts, if_neg hn]
      exact hn

/-- A fresh name is committed immediately with zero attempts. -/
theorem remedy_skip (gen : ℕ → String) (normalize : String → String) (uniq : List String)
    (name : String) (hn : name ∉ uniq) :
    ∀ (k attempts : ℕ), remedyAttempts gen normalize uniq k attempts name = (name, attempts) := by
  intro k attempts
  cases k with
  | zero => rfl
  | succ k => simp only [remedyAttempts, if_neg hn]

/-- Evaluation of `clean_topic_names` on one layer of two clusters that both
normalize to the raw name "Research": the first commits "Research" with zero
attempts; the second runs the re-prompt loop against the used set
`["Research"]`. -/
theorem clean_two_eval (gen : ℕ → ℕ → ℕ → String) (normalize : String → String)
    (a b : String) (psA psB : List ℕ) (nDocs : ℕ)
    (hA : normalize a = "Research") (hB : normalize b = "Research") :
    clean_topic_names gen normalize [[a, b]] [[psA, psB]] nDocs =
      (setInsert ["Research"] (remedyAttempts (gen 0 1) normalize ["Research"] 8 0 "Research").1,
       [(0, assignAll (assignAll (List.replicate nDocs "Unlabelled") psA "Research") psB
            (remedyAttempts (gen 0 1) normalize ["Research"] 8 0 "Research").1,
         [("Research", 0),
          ((remedyAttempts (gen 0 1) normalize ["Research"] 8 0 "Research").1,
           (remedyAttempts (gen 0 1) normalize ["Research"] 8 0 "Research").2)])]) := by
  have h0 : remedyAttempts (gen 0 0) normalize [] 8 0 (normalize a) = ("Research", 0) := by
    rw [hA]
    exact remedy_skip _ _ _ _ (List.not_mem_nil _) 8 0
  have hins : setInsert ([] : List String) "Research" = ["Research"] := rfl
  simp only [clean_topic_names]
  norm_num [List.range_succ, List.range_zero]
  simp only [processLayersRev, processClusters, List.zip_cons_cons, List.zip_nil_right]
  rw [h0, hB]
  simp only [hins]

/-- C7 (amended): if two clusters of the same layer both normalize to the
raw name "Research" and some re-prompt attempt (among the at most 8) yields
a name other than "Research", then `clean_topic_names` commits "Research"
(0 attempts) for the first cluster and a DIFFERENT name for the second, both
committed names are in the global used-name set afterward, and the second
cluster used at most 8 attempts.  (Without such an attempt the duplicate is
committed anyway - see the counterexample - so distinctness needs this
hypothesis.) -/
theorem clean_topic_names_dedup (gen : ℕ → ℕ → ℕ → String) (normalize : String → String)
    (a b : String) (psA psB : List ℕ) (nDocs : ℕ)
    (hA : normalize a = "Research") (hB : normalize b = "Research")
    (hfresh : ∃ m, m < 8 ∧ normalize (gen 0 1 m) ≠ "Research") :
    ∃ n2 t2,
      (clean_topic_names gen normalize [[a, b]] [[psA, psB]] nDocs).2.map
        (fun layer => layer.2.2) = [[("Research", 0), (n2, t2)]] ∧
      n2 ≠ "Research" ∧ t2 ≤ 8 ∧
      "Research" ∈ (clean_topic_names gen normalize [[a, b]] [[psA, psB]] nDocs).1 ∧
      n2 ∈ (clean_topic_names gen normalize [[a, b]] [[psA, psB]] nDocs).1 := by
  have heval := clean_two_eval gen normalize a b psA psB nDocs hA hB
  have hr21 : (remedyAttempts (gen 0 1) normalize ["Research"] 8 0 "Research").1 ∉
      (["Research"] : List String) := by
    apply remedy_found
    right
    obtain ⟨m, hm, hne⟩ := hfresh
    exact ⟨m, hm, by simpa using hne⟩
  have hne2 : (remedyAttempts (gen 0 1) normalize ["Research"] 8 0 "Research").1 ≠
      "Research" := by
    intro h
    exact hr21 (by rw [h]; exact List.mem_cons_self _ _)
  have ht2 : (remedyAttempts (gen 0 1) normalize ["Research"] 8 0 "Research").2 ≤ 8 := by
    simpa using remedy_bound (gen 0 1) normalize ["Research"] 8 0 "Research"
  refine ⟨(remedyAttempts (gen 0 1) normalize ["Research"] 8 0 "Research").1,
    (remedyAttempts (gen 0 1) normalize ["Research"] 8 0 "Research").2, ?_, hne2, ht2, ?_, ?_⟩
  · rw [heval]
    rfl
  · rw [heval]
    exact (mem_setInsert _ _ _).mpr (Or.inl (List.mem_cons_self _ _))
  · rw [heval]
    exact (mem_setInsert _ _ _).mpr (Or.inr rfl)

/-- C7 witness: the amended theorem applied to a concrete oracle whose first
re-prompt reply is the fresh name "Fresh". -/
theorem clean_topic_names_dedup_witness :
    ∃ n2 t2,
      (clean_topic_names (fun _ _ _ => "Fresh") id [["Research", "Research"]] [[[0], [1]]]
          2).2.map (fun layer => layer.2.2) = [[("Research", 0), (n2, t2)]] ∧
      n2 ≠ "Research" ∧ t2 ≤ 8 ∧
      "Research" ∈ (clean_topic_names (fun _ _ _ => "Fresh") id [["Research", "Research"]]
        [[[0], [1]]] 2).1 ∧
      n2 ∈ (clean_topic_names (fun _ _ _ => "Fresh") id [["Research", "Research"]]
        [[[0], [1]]] 2).1 :=
  clean_topic_names_dedup (fun _ _ _ => "Fresh") id "Research" "Research" [0] [1] 2 rfl rfl
    ⟨0, by decide, by decide⟩

/-- C7 counterexample: with a generation oracle that answers "Research" to
every re-prompt, the second cluster exhausts its 8 attempts and commits
"Research" AGAIN - the two committed names are equal, not distinct, and the
used-name set holds the single name "Research". -/
theorem clean_topic_names_duplicate_cx :
    ((clean_topic_names (fun _ _ _ => "Research") id [["Research", "Research"]] [[[0], [1]]]
        2).2.map (fun layer => layer.2.2)) = [[("Research", 0), ("Research", 8)]] ∧
    (clean_topic_names (fun _ _ _ => "Research") id [["Research", "Research"]] [[[0], [1]]]
        2).1 = ["Research"] :=
  ⟨by decide, by decide⟩

theorem isPref_iff : ∀ (n h : List Char), isPref n h = true ↔ ∃ t, h = n ++ t := by
  intro n
  induction n with
  | nil =>
    intro h
    simp [isPref]
  | cons a n ih =>
    intro h
    cases h with
    | nil =>
      simp [isPref]
    | cons b t =>
      simp only [isPref, Bool.and_eq_true, beq_iff_eq]
      rw [ih t]
      constructor
      · rintro ⟨rfl, s, rfl⟩
        exact ⟨s, rfl⟩
      · rintro ⟨s, hs⟩
        injection hs with h1 h2
        exact ⟨h1.symm, s, h2⟩

theorem isSub_iff : ∀ (h n : List Char), isSub n h = true ↔ ∃ a b, h = a ++ n ++ b := by
  intro h
  induction h with
  | nil =>
    intro n
    simp only [isSub]
    rw [isPref_iff]
    constructor
    · rintro ⟨t, ht⟩
      exact ⟨[], t, ht⟩
    · rintro ⟨a, b, hab⟩
      match a, hab with
      | [], hab => exact ⟨b, hab⟩
      | x :: a, hab => exact absurd hab (by simp)
  | cons c t ih =>
    intro n
    simp only [isSub, Bool.or_eq_true]
    rw [isPref_iff, ih n]
    constructor
    · rintro (⟨s, hs⟩ | ⟨a, b, hab⟩)
      · exact ⟨[], s, hs⟩
      · exact ⟨c :: a, b, by rw [hab]; rfl⟩
    · rintro ⟨a, b, hab⟩
      match a, hab with
      | [], hab => exact Or.inl ⟨b, hab⟩
      | x :: a, hab =>
        injection hab with h1 h2
        exact Or.inr ⟨a, b, h2⟩

theorem sub_of_spacedSub (p o : List Char) (h : spacedSub p o = true) :
    (∃ a b, o = a ++ p ++ b) ∧ p.length < o.length := by
  unfold spacedSub at h
  rw [Bool.or_eq_true] at h
  rcases h with h | h
  · obtain ⟨a, b, hab⟩ := (isSub_iff _ _).mp h
    subst hab
    refine ⟨⟨a ++ [' '], b, by simp⟩, by simp; omega⟩
  · obtain ⟨a, b, hab⟩ := (isSub_iff _ _).mp h
    subst hab
    refine ⟨⟨a, ' ' :: b, by simp⟩, by simp; omega⟩

theorem spacedSub_trans_sub (x p q : List Char) (h : spacedSub x p = true)
    (hs : ∃ a b, q = a ++ p ++ b) : spacedSub x q = true := by
  obtain ⟨a, b, rfl⟩ := hs
  unfold spacedSub at h ⊢
  rw [Bool.or_eq_true] at h ⊢
  rcases h with h | h
  · left
    obtain ⟨c, d, hcd⟩ := (isSub_iff _ _).mp h
    subst hcd
    exact (isSub_iff _ _).mpr ⟨a ++ c, d ++ b, by simp⟩
  · right
    obtain ⟨c, d, hcd⟩ := (isSub_iff _ _).mp h
    subst hcd
    exact (isSub_iff _ _).mpr ⟨a ++ c, d ++ b, by simp⟩

theorem spacedSub_irrefl (p : List Char) : spacedSub p p ≠ true := fun h => by
  have := (sub_of_spacedSub p p h).2
  omega

theorem lkChain_grows : ∀ (cands : List (List Char)) (p : List Char),
    lkChain cands p = p ∨ spacedSub p (lkChain cands p) = true := by
  intro cands
  induction cands with
  | nil => intro p; exact Or.inl rfl
  | cons o rest ih =>
    intro p
    simp only [lkChain]
    by_cases h : spacedSub p o = true
    · rw [if_pos h]
      rcases ih o with heq | hgrow
      · rw [heq]; exact Or.inr h
      · exact Or.inr (spacedSub_trans_sub p o _ h (sub_of_spacedSub o _ hgrow).1)
    · rw [if_neg h]
      exact ih p

theorem lkChain_no_ext : ∀ (cands : List (List Char)) (p : List Char),
    ∀ o ∈ cands, spacedSub (lkChain cands p) o ≠ true := by
  intro cands
  induction cands with
  | nil => intro p o ho; exact absurd ho (List.not_mem_nil o)
  | cons o' rest ih =>
    intro p o ho
    simp only [lkChain]
    by_cases h : spacedSub p o' = true
    · rw [if_pos h]
      rcases List.mem_cons.mp ho with rfl | ho
      · intro hq
        have hlen1 := (sub_of_spacedSub _ _ hq).2
        rcases lkChain_grows rest o with heq | hgrow
        · rw [heq] at hq
          exact spacedSub_irrefl o hq
        · have hlen2 := (sub_of_spacedSub _ _ hgrow).2
          have hsub := (sub_of_spacedSub _ _ hq).1
          omega
      · exact ih o' o ho
    · rw [if_neg h]
      rcases List.mem_cons.mp ho with rfl | ho
      · intro hq
        rcases lkChain_grows rest p with heq | hgrow
        · rw [heq] at hq
          exact h hq
        · exact h (spacedSub_trans_sub p _ o hgrow (sub_of_spacedSub _ _ hq).1)
      · exact ih p o ho

theorem lkChain_mem : ∀ (cands : List (List Char)) (p : List Char),
    lkChain cands p = p ∨ lkChain cands p ∈ cands := by
  intro cands
  induction cands with
  | nil => intro p; exact Or.inl rfl
  | cons o rest ih =>
    intro p
    simp only [lkChain]
    by_cases h : spacedSub p o = true
    · rw [if_pos h]
      rcases ih o with heq | hmem
      · rw [heq]; exact Or.inr (List.mem_cons_self _ _)
      · exact Or.inr (List.mem_cons_of_mem _ hmem)
    · rw [if_neg h]
      rcases ih p with heq | hmem
      · exact Or.inl heq
      · exact Or.inr (List.mem_cons_of_mem _ hmem)

theorem lkChain_id : ∀ (cands : List (List Char)) (p : List Char),
    (∀ o ∈ cands, spacedSub p o ≠ true) → lkChain cands p = p := by
  intro cands
  induction cands with
  | nil => intro p _; rfl
  | cons o rest ih =>
    intro p hno
    simp only [lkChain]
    rw [if_neg (hno o (List.mem_cons_self _ _))]
    exact ih p (fun x hx => hno x (List.mem_cons_of_mem _ hx))

theorem set_getD_self {α} : ∀ (l : List α) (j : ℕ) (d : α), j < l.length →
    l.set j (l.getD j d) = l
  | a :: t, 0, d, _ => rfl
  | a :: t, j + 1, d, h => by
      simp only [List.set, List.getD_cons_succ]
      rw [set_getD_self t j d (Nat.lt_of_succ_lt_succ h)]

theorem take_append_getD {α} : ∀ (l : List α) (j : ℕ) (d : α), j < l.length →
    l.take j ++ [l.getD j d] = l.take (j + 1)
  | a :: t, 0, d, _ => rfl
  | a :: t, j + 1, d, h => by
      simp only [List.take_succ_cons, List.getD_cons_succ, List.cons_append]
      rw [take_append_getD t j d (Nat.lt_of_succ_lt_succ h)]

/-- Invariant of the outer loop of `longest_keyphrases`: the result is
duplicate-free and there is a final state `lf` of the (mutated) candidate
list such that every result phrase is an element of `lf` and no element of
`lf` extends any result phrase. -/
theorem lkLoop_inv : ∀ (idxs : List ℕ) (l res : List (List Char)),
    (∀ i ∈ idxs, i < l.length) →
    res.Nodup →
    (∀ p ∈ res, ∀ o ∈ l, spacedSub p o ≠ true) →
    (∀ p ∈ res, p ∈ l) →
    (lkLoop l res idxs).Nodup ∧
    ∃ lf : List (List Char),
      (∀ p ∈ lkLoop l res idxs, ∀ o ∈ lf, spacedSub p o ≠ true) ∧
      (∀ p ∈ lkLoop l res idxs, p ∈ lf) := by
  intro idxs
  induction idxs with
  | nil =>
    intro l res _ hnd hno hmem
    exact ⟨hnd, l, hno, hmem⟩
  | cons i rest ih =>
    intro l res hbound hnd hno hmem
    have hi : i < l.length := hbound i (List.mem_cons_self _ _)
    simp only [lkLoop]
    have hphr_mem : lkChain l (l.getD i []) ∈ l := by
      rcases lkChain_mem l (l.getD i []) with heq | hmem2
      · rw [heq, List.getD_eq_getElem _ _ hi]
        exact List.getElem_mem _
      · exact hmem2
    have hphr_no : ∀ o ∈ l, spacedSub (lkChain l (l.getD i [])) o ≠ true :=
      lkChain_no_ext l (l.getD i [])
    by_cases hin : lkChain l (l.getD i []) ∈ res
    · rw [if_pos hin]
      exact ih l res (fun j hj => hbound j (List.mem_cons_of_mem _ hj)) hnd hno hmem
    · rw [if_neg hin]
      refine ih (l.set i (lkChain l (l.getD i []))) (res ++ [lkChain l (l.getD i [])])
        (fun j hj => by rw [List.length_set]; exact hbound j (List.mem_cons_of_mem _ hj))
        ?_ ?_ ?_
      · rw [List.nodup_append]
        exact ⟨hnd, List.nodup_singleton _, by
          intro a ha hb
          simp only [List.mem_singleton] at hb
          subst hb
          exact hin ha⟩
      · intro p hp o ho
        rcases List.mem_or_eq_of_mem_set ho with ho | rfl
        · rcases List.mem_append.mp hp with hp | hp
          · exact hno p hp o ho
          · simp only [List.mem_singleton] at hp
            subst hp
            exact hphr_no o ho
        · rcases List.mem_append.mp hp with hp | hp
          · exact hno p hp _ hphr_mem
          · simp only [List.mem_singleton] at hp
            subst hp
            exact spacedSub_irrefl _
      · intro p hp
        rcases List.mem_append.mp hp with hpr | hpr
        · have hpl := hmem p hpr
          obtain ⟨k, hk, hkeq⟩ := List.mem_iff_getElem.mp hpl
          by_cases hki : k = i
          · subst hki
            exfalso
            have hgetd : l.getD k [] = p := by rw [List.getD_eq_getElem _ _ hk, hkeq]
            have hcid : lkChain l (l.getD k []) = l.getD k [] := by
              apply lkChain_id
              intro o ho
              rw [hgetd]
              exact hno p hpr o ho
            rw [hcid, hgetd] at hin
            exact hin hpr
          · refine List.mem_iff_getElem.mpr ⟨k, by rw [List.length_set]; exact hk, ?_⟩
            rw [List.getElem_set_ne (fun he => hki he.symm)]
            exact hkeq
        · simp only [List.mem_singleton] at hpr
          subst hpr
          refine List.mem_iff_getElem.mpr ⟨i, by rw [List.length_set]; exact hi, ?_⟩
          exact List.getElem_set_self _

/-- Second run of the loop on a duplicate-free list without mutual
extensions: every step keeps the list and appends the scanned element, so the
run reproduces the list. -/
theorem lkLoop_id (R : List (List Char)) (hnd : R.Nodup)
    (hno : ∀ p ∈ R, ∀ q ∈ R, spacedSub p q ≠ true) :
    ∀ (m j : ℕ), j + m = R.length → lkLoop R (R.take j) (List.range' j m) = R := by
  intro m
  induction m with
  | zero =>
    intro j hj
    simp only [List.range']
    show R.take j = R
    rw [show j = R.length by omega]
    exact List.take_length R
  | succ m ih =>
    intro j hj
    have hjlen : j < R.length := by omega
    simp only [List.range', lkLoop]
    have hgetd : R.getD j [] = R[j] := List.getD_eq_getElem _ _ hjlen
    have hchain : lkChain R (R.getD j []) = R.getD j [] := by
      apply lkChain_id
      intro o ho
      rw [hgetd]
      exact hno R[j] (List.getElem_mem _) o ho
    have hnotin : lkChain R (R.getD j []) ∉ R.take j := by
      rw [hchain, hgetd]
      intro hmem
      obtain ⟨k, hk, hkeq⟩ := List.mem_iff_getElem.mp hmem
      have hklen : k < R.length := lt_of_lt_of_le (lt_of_lt_of_le hk (by
        rw [List.length_take]; exact min_le_right _ _)) le_rfl
      have hkj : k < j := lt_of_lt_of_le hk (by rw [List.length_take]; exact min_le_left _ _)
      rw [List.getElem_take] at hkeq
      have := (hnd.getElem_inj_iff).mp hkeq
      omega
    rw [if_neg hnotin, hchain, hgetd]
    rw [show R.set j R[j] = R from by rw [← hgetd]; exact set_getD_self R j [] hjlen]
    rw [show R.take j ++ [R[j]] = R.take (j + 1) from by
      rw [← hgetd]; exact take_append_getD R j [] hjlen]
    exact ih (j + 1) (by omega)

/-- C8: `longest_keyphrases` is idempotent - applying it to its own output
returns that output unchanged (same list, same elements, same order). -/
theorem longest_keyphrases_idempotent (candidate_keyphrases : List (List Char)) :
    longest_keyphrases (longest_keyphrases candidate_keyphrases) =
      longest_keyphrases candidate_keyphrases := by
  obtain ⟨hnd, lf, hno_lf, hmem_lf⟩ :=
    lkLoop_inv (List.range candidate_keyphrases.length) candidate_keyphrases []
      (fun i hi => List.mem_range.mp hi) List.nodup_nil
      (fun p hp => absurd hp (List.not_mem_nil p)) (fun p hp => absurd hp (List.not_mem_nil p))
  have hno : ∀ p ∈ longest_keyphrases candidate_keyphrases,
      ∀ q ∈ longest_keyphrases candidate_keyphrases, spacedSub p q ≠ true :=
    fun p hp q hq => hno_lf p hp q (hmem_lf q hq)
  show lkLoop (longest_keyphrases candidate_keyphrases) []
      (List.range (longest_keyphrases candidate_keyphrases).length) =
    longest_keyphrases candidate_keyphrases
  rw [List.range_eq_range']
  exact lkLoop_id (longest_keyphrases candidate_keyphrases) hnd hno
    (longest_keyphrases candidate_keyphrases).length 0 (by omega)
